import Mathlib

/-!
# Comprexia block codec: a shallow embedding and its verification

Bytes are natural numbers (a byte buffer is a `List Nat` whose entries are below 256);
every narrowing cast of the C++ code is written as an explicit `% 256` or `% 65536`.
Buffer sizes and positions (`size_t`) are natural numbers: a buffer that lives in memory
is far shorter than `2 ^ 64`, and the one place where the code lets a `size_t`
subtraction wrap (`out.size() - dist` in the decoder) is modelled explicitly.
-/

namespace cx

/-! ## Outcomes of running a piece of the code -/

/-- What running a function of the library does: it returns a value, or it reads a
vector outside its bounds (undefined behaviour in C++; nothing is reported to the
caller), or the model ran out of fuel (shown impossible for the fuel the top-level
functions supply). -/
inductive Outcome (α : Type) where
  | returns (v : α)
  | undefinedBehaviour
  | outOfFuel
  deriving DecidableEq, Repr

/-- Sequencing of two computations. -/
def Outcome.bind {α β : Type} : Outcome α → (α → Outcome β) → Outcome β
  | .returns v, f => f v
  | .undefinedBehaviour, _ => .undefinedBehaviour
  | .outOfFuel, _ => .outOfFuel

/-! ## Decoder (`decoder.cpp`) -/

/-- The copy loop of the match branch of `decompress`:
`for (size_t k = 0; k < mlen; ++k) out.push_back(out[start + k]);`
run from counter `k` with `n` iterations left. Reading `out[start + k]` at or beyond the
current size of `out` is an out-of-bounds read. -/
def copyMatch (start : Nat) : Nat → Nat → List Nat → Outcome (List Nat)
  | 0, _, out => .returns out
  | n + 1, k, out =>
    match out[start + k]? with
    | some b => copyMatch start n (k + 1) (out ++ [b])
    | none => .undefinedBehaviour

/-- The `while (i < len)` loop of `decompress`. The cursor `i` is represented by the
unread suffix `data[i..len)` of the input. One unit of fuel is spent per block header.

In the match branch `size_t start = out.size() - dist;` wraps modulo `2 ^ 64` when
`dist > out.size()`; the index `start + 0` of the first read is then at least
`2 ^ 64 - 65535`, beyond the end of any vector, so that case is an out-of-bounds read. -/
def decompressLoop : Nat → List Nat → List Nat → Outcome (List Nat)
  | 0, _, _ => .outOfFuel
  | _ + 1, [], out => .returns out
  | fuel + 1, h :: rest, out =>
    if h &&& 0x80 = 0 then
      let count := if h > rest.length then rest.length else h
      decompressLoop fuel (rest.drop count) (out ++ rest.take count)
    else
      let mlen := (h &&& 0x7F) + 3
      match rest with
      | d0 :: d1 :: rest2 =>
        let dist := (d0 ||| (d1 <<< 8)) % 65536
        if dist > out.length then .undefinedBehaviour
        else
          match copyMatch (out.length - dist) mlen 0 out with
          | .returns out2 => decompressLoop fuel rest2 out2
          | .undefinedBehaviour => .undefinedBehaviour
          | .outOfFuel => .outOfFuel
      | _ => .returns out

/-- The function `decompress(data, len)`: the loop started at `i = 0` with an empty output. Every
iteration consumes at least the header byte, so `len + 1` units of fuel are enough. -/
def decompress (data : List Nat) : Outcome (List Nat) :=
  decompressLoop (data.length + 1) data []

/-! ## The bytes a match copies -/

/-- The bytes a match of length `len` at distance `dist` appends to the output `out`:
byte `k` is the byte `dist` places before the end of `out`, repeating with period `dist`. -/
def matchBytes (out : List Nat) (len dist : Nat) : List Nat :=
  (List.range len).map (fun k => out.getD (out.length - dist + k % dist) 0)

/-- The decoder loop run to completion on the unread input `data` with the output `out`
produced so far (`decompress data` is `decodeFrom data []`). -/
def decodeFrom (data out : List Nat) : Outcome (List Nat) :=
  decompressLoop (data.length + 1) data out

/-! ## Whole-buffer encoders (`encoder.cpp`) -/

/-- The byte `data[i]`. Every read of the encoders is inside the buffer (shown where it
matters); the default `0` is never observed there. -/
def byteAt (data : List Nat) (i : Nat) : Nat := data.getD i 0

/-- The function `hash4(data + p)`: the four bytes at `p` packed little-endian into a `uint32_t`. -/
def hash4 (data : List Nat) (p : Nat) : Nat :=
  (byteAt data p ||| (byteAt data (p + 1) <<< 8) ||| (byteAt data (p + 2) <<< 16)
    ||| (byteAt data (p + 3) <<< 24)) % 2 ^ 32

/-- The table `std::unordered_map<uint32_t, size_t>`: at most one position per hash. -/
abbrev HashTable := Nat → Option Nat

/-- The empty table. -/
def HashTable.empty : HashTable := fun _ => none

/-- The assignment `table[h] = pos`. -/
def HashTable.set (t : HashTable) (h pos : Nat) : HashTable :=
  fun k => if k = h then some pos else t k

/-- The loop `while (mlen < max_len && data[cand + mlen] == data[pos + mlen]) mlen++;`
where `room = max_len - mlen` is the number of increments the bound still allows. -/
def extendMatch (data : List Nat) (cand pos : Nat) : Nat → Nat → Nat
  | 0, mlen => mlen
  | room + 1, mlen =>
    if byteAt data (cand + mlen) = byteAt data (pos + mlen) then
      extendMatch data cand pos room (mlen + 1)
    else mlen

/-- The function `find_match_fast(data, pos, len, table, match_dist)`: returns the match length, the
distance written to `match_dist` (left at the caller's `0` on the early return) and the
updated table. Table entries are earlier positions, so `pos - candidate_pos` does not
wrap. -/
def find_match_fast (data : List Nat) (pos : Nat) (table : HashTable) :
    Nat × Nat × HashTable :=
  if pos + 4 > data.length then (0, 0, table)
  else
    let h := hash4 data pos
    let found : Nat × Nat :=
      match table h with
      | some candidate_pos =>
        let dist := pos - candidate_pos
        if dist ≤ 65535 then
          if byteAt data candidate_pos = byteAt data pos
              ∧ byteAt data (candidate_pos + 1) = byteAt data (pos + 1)
              ∧ byteAt data (candidate_pos + 2) = byteAt data (pos + 2)
              ∧ byteAt data (candidate_pos + 3) = byteAt data (pos + 3) then
            let max_len := min (data.length - pos) 258
            (extendMatch data candidate_pos pos (max_len - 4) 4, dist)
          else (0, 0)
        else (0, 0)
      | none => (0, 0)
    (found.1, found.2, table.set h pos)

/-- The function `find_match_ultrafast`: as `find_match_fast`, with the four bytes compared as one
32-bit word and the match length capped at 64. -/
def find_match_ultrafast (data : List Nat) (pos : Nat) (table : HashTable) :
    Nat × Nat × HashTable :=
  if pos + 4 > data.length then (0, 0, table)
  else
    let h := hash4 data pos
    let found : Nat × Nat :=
      match table h with
      | some candidate_pos =>
        let dist := pos - candidate_pos
        if dist ≤ 65535 then
          if [byteAt data candidate_pos, byteAt data (candidate_pos + 1),
                byteAt data (candidate_pos + 2), byteAt data (candidate_pos + 3)]
              = [byteAt data pos, byteAt data (pos + 1), byteAt data (pos + 2),
                  byteAt data (pos + 3)] then
            let max_len := min (data.length - pos) 64
            (extendMatch data candidate_pos pos (max_len - 4) 4, dist)
          else (0, 0)
        else (0, 0)
      | none => (0, 0)
    (found.1, found.2, table.set h pos)

/-- The lambda `flush_literals` (also the static function of `stream.cpp`): a non-empty
literal buffer is written as one literal block. Returns the output; the caller clears the
buffer. -/
def flush_literals (out litbuf : List Nat) : List Nat :=
  if litbuf.isEmpty then out else out ++ (litbuf.length % 256 :: litbuf)

/-- The three bytes of a short-match block as the encoders write them:
`0x80 | (uint8_t)(take - 3)` and the `uint16_t` distance, low byte first. The
subtraction `take - 3` is a `size_t` subtraction. -/
def matchBlockBytes (take dist : Nat) : List Nat :=
  [(0x80 ||| ((take + 2 ^ 64 - 3) % 2 ^ 64 % 256)) % 256,
   (dist % 65536) &&& 0xFF, ((dist % 65536) >>> 8) &&& 0xFF]

/-- The loop `while (enc_len > 0)` that writes a match in segments of at most 130 bytes.
State: position `i`, remaining `enc_len`, output. -/
def emitSegments (dist : Nat) : Nat → Nat → Nat → List Nat → Outcome (Nat × List Nat)
  | 0, _, _, _ => .outOfFuel
  | fuel + 1, enc_len, i, out =>
    if enc_len > 0 then
      let take := min enc_len 130
      emitSegments dist fuel (enc_len - take) (i + take) (out ++ matchBlockBytes take dist)
    else .returns (i, out)

/-- The main loop `while (i < len)` of `compress`, followed by the final
`flush_literals(); return out;`. -/
def compressLoop (data : List Nat) :
    Nat → Nat → List Nat → List Nat → HashTable → Outcome (List Nat)
  | 0, _, _, _, _ => .outOfFuel
  | fuel + 1, i, litbuf, out, table =>
    if i < data.length then
      let r := find_match_fast data i table
      let mlen := r.1
      let dist := r.2.1
      if mlen ≥ 4 then
        let out := flush_literals out litbuf
        if mlen > 130 then
          let l16 := (min mlen 65535) % 65536
          let d16 := dist % 65536
          compressLoop data fuel (i + l16) []
            (out ++ [0xFF, l16 &&& 0xFF, (l16 >>> 8) &&& 0xFF, d16 &&& 0xFF,
              (d16 >>> 8) &&& 0xFF]) r.2.2
        else
          match emitSegments dist (mlen + 1) mlen i out with
          | .returns (i2, out2) => compressLoop data fuel i2 [] out2 r.2.2
          | .undefinedBehaviour => .undefinedBehaviour
          | .outOfFuel => .outOfFuel
      else
        let litbuf := litbuf ++ [byteAt data i]
        if litbuf.length = 127 then
          compressLoop data fuel (i + 1) [] (flush_literals out litbuf) r.2.2
        else compressLoop data fuel (i + 1) litbuf out r.2.2
    else .returns (flush_literals out litbuf)

/-- The function `compress(data, len)`. Every iteration of the main loop advances `i` by at least
one, so `len + 1` units of fuel are enough. -/
def compress (data : List Nat) : Outcome (List Nat) :=
  compressLoop data (data.length + 1) 0 [] [] HashTable.empty

/-- The main loop of `compress_fast`: as that of `compress`, with `find_match_ultrafast`
and without the extended-match branch. -/
def compressFastLoop (data : List Nat) :
    Nat → Nat → List Nat → List Nat → HashTable → Outcome (List Nat)
  | 0, _, _, _, _ => .outOfFuel
  | fuel + 1, i, litbuf, out, table =>
    if i < data.length then
      let r := find_match_ultrafast data i table
      let mlen := r.1
      let dist := r.2.1
      if mlen ≥ 4 then
        match emitSegments dist (mlen + 1) mlen i (flush_literals out litbuf) with
        | .returns (i2, out2) => compressFastLoop data fuel i2 [] out2 r.2.2
        | .undefinedBehaviour => .undefinedBehaviour
        | .outOfFuel => .outOfFuel
      else
        let litbuf := litbuf ++ [byteAt data i]
        if litbuf.length = 127 then
          compressFastLoop data fuel (i + 1) [] (flush_literals out litbuf) r.2.2
        else compressFastLoop data fuel (i + 1) litbuf out r.2.2
    else .returns (flush_literals out litbuf)

/-- The function `compress_fast(data, len)`. -/
def compress_fast (data : List Nat) : Outcome (List Nat) :=
  compressFastLoop data (data.length + 1) 0 [] [] HashTable.empty

/-! ## Streaming encoder (`stream.cpp`) -/

/-- The struct `EncoderState`: the pending literal bytes. -/
structure EncoderState where
  lit : List Nat
  deriving DecidableEq, Repr

/-- The function `encoder_init(s)`: `s.lit.clear()`. -/
def encoder_init (s : EncoderState) : EncoderState := { s with lit := [] }

/-- The loop `for (s2 = start; s2 + 3 <= pos; ++s2)` of the lambda `find_match`, with `n`
the number of values of `s2` still to visit (those with `s2 + 3 <= pos`). The match
length `m` of a candidate is counted from 0 by the same loop shape as in the whole-buffer
finders. -/
def scanCandidates (data : List Nat) (pos max_len : Nat) : Nat → Nat → Nat → Nat → Nat × Nat
  | 0, _, best_len, best_dist => (best_len, best_dist)
  | n + 1, s2, best_len, best_dist =>
    let d := pos - s2
    let m := extendMatch data s2 pos max_len 0
    if m ≥ 3 ∧ m > best_len then
      if m = max_len then (m, d)
      else scanCandidates data pos max_len n (s2 + 1) m d
    else scanCandidates data pos max_len n (s2 + 1) best_len best_dist

/-- The lambda `find_match(pos, dist)` of `encoder_chunk`: the longest match of at least
3 bytes among the starts `s2` in the last 4096 bytes of the current chunk. Returns the
length and the distance. -/
def find_match (data : List Nat) (pos : Nat) : Nat × Nat :=
  let start := if pos > 4096 then pos - 4096 else 0
  let max_len := min (data.length - pos) 130
  scanCandidates data pos max_len (pos + 1 - (start + 3)) start 0 0

/-- The loop `while (i < len)` of `encoder_chunk`; returns the output of the call and
the pending literal bytes it leaves in the state. -/
def encoderChunkLoop (data : List Nat) :
    Nat → Nat → List Nat → List Nat → Outcome (List Nat × List Nat)
  | 0, _, _, _ => .outOfFuel
  | fuel + 1, i, lit, out =>
    if i < data.length then
      let r := find_match data i
      let mlen := r.1
      let dist := r.2
      if mlen ≥ 3 then
        let out := flush_literals out lit
        let take := min mlen 130
        encoderChunkLoop data fuel (i + take) [] (out ++ matchBlockBytes take dist)
      else
        let lit := lit ++ [byteAt data i]
        if lit.length = 127 then
          encoderChunkLoop data fuel (i + 1) [] (flush_literals out lit)
        else encoderChunkLoop data fuel (i + 1) lit out
    else .returns (out, lit)

/-- The function `encoder_chunk(s, data, len)`: the output buffer and the state after the call. -/
def encoder_chunk (s : EncoderState) (data : List Nat) :
    Outcome (List Nat × EncoderState) :=
  match encoderChunkLoop data (data.length + 1) 0 s.lit [] with
  | .returns (out, lit) => .returns (out, { lit := lit })
  | .undefinedBehaviour => .undefinedBehaviour
  | .outOfFuel => .outOfFuel

/-- The function `encoder_end(s)`: flushes the pending literal bytes. -/
def encoder_end (s : EncoderState) : List Nat × EncoderState :=
  (flush_literals [] s.lit, { lit := [] })

/-- Feeding the chunks one after the other to `encoder_chunk`; returns the concatenation
of the output buffers and the final state. -/
def feedChunks : EncoderState → List (List Nat) → Outcome (List Nat × EncoderState)
  | s, [] => .returns ([], s)
  | s, c :: cs =>
    (encoder_chunk s c).bind fun r1 =>
      (feedChunks r1.2 cs).bind fun r2 => .returns (r1.1 ++ r2.1, r2.2)

/-- A whole streaming session: `encoder_init`, one `encoder_chunk` per chunk, then
`encoder_end`; returns the concatenation of all buffers handed out. -/
def encodeStream (s0 : EncoderState) (chunks : List (List Nat)) : Outcome (List Nat) :=
  (feedChunks (encoder_init s0) chunks).bind fun r => .returns (r.1 ++ (encoder_end r.2).1)

/-! ## JSON preprocessor and UTF-8 delta transform (`preprocessor.h`, `preprocessor.cpp`) -/

/-- Token `TOK_OBJECT_START` of `enum JsonToken`. -/
abbrev TOK_OBJECT_START : Nat := 0xF0
/-- Token `TOK_OBJECT_END`. -/
abbrev TOK_OBJECT_END : Nat := 0xF1
/-- Token `TOK_ARRAY_START`. -/
abbrev TOK_ARRAY_START : Nat := 0xF2
/-- Token `TOK_ARRAY_END`. -/
abbrev TOK_ARRAY_END : Nat := 0xF3
/-- Token `TOK_COLON`. -/
abbrev TOK_COLON : Nat := 0xF4
/-- Token `TOK_COMMA`. -/
abbrev TOK_COMMA : Nat := 0xF5
/-- Token `TOK_QUOTE`. -/
abbrev TOK_QUOTE : Nat := 0xF6
/-- Token `TOK_TRUE`. -/
abbrev TOK_TRUE : Nat := 0xF7
/-- Token `TOK_FALSE`. -/
abbrev TOK_FALSE : Nat := 0xF8
/-- Token `TOK_NULL`. -/
abbrev TOK_NULL : Nat := 0xF9

/-- The value of the two-character literal `'\\"'` that the in-string branch of
`preprocess` compares the byte `c` with: a multi-character constant has type `int` and,
with GCC, Clang and MSVC, the value `'\\' * 256 + '"'`. No byte is equal to it. -/
abbrev escapedQuoteLiteral : Nat := 0x5C * 256 + 0x22

/-- The loop `while (i < len)` of `JsonPreprocessor::preprocess`. The cursor `i` is
represented by the unread suffix `data[i..len)`; the state is `in_string`, `last_char`
and the output vector. A lookahead `i + k < len && data[i + 1] == ..` is a test on the
first bytes of the suffix after `c`. -/
def JsonPreprocessor.preprocessLoop : List Nat → Bool → Nat → List Nat → List Nat
  | [], _, _, output => output
  | c :: rest, true, last_char, output =>
    if c = escapedQuoteLiteral ∧ rest.head? = some 0x22 then
      preprocessLoop (rest.drop 1) true last_char (output ++ [c, 0x22])
    else if c = 0x22 then
      preprocessLoop rest false last_char (output ++ [TOK_QUOTE])
    else if last_char ≠ 0 ∧ c &&& 0xC0 = 0x80 ∧ last_char &&& 0xC0 = 0x80 then
      preprocessLoop rest true c (output ++ [(c + 256 - last_char + 128) % 256])
    else
      preprocessLoop rest true c (output ++ [c])
  | c :: rest, false, last_char, output =>
    if c = 0x7B then preprocessLoop rest false last_char (output ++ [TOK_OBJECT_START])
    else if c = 0x7D then preprocessLoop rest false last_char (output ++ [TOK_OBJECT_END])
    else if c = 0x5B then preprocessLoop rest false last_char (output ++ [TOK_ARRAY_START])
    else if c = 0x5D then preprocessLoop rest false last_char (output ++ [TOK_ARRAY_END])
    else if c = 0x3A then preprocessLoop rest false last_char (output ++ [TOK_COLON])
    else if c = 0x2C then preprocessLoop rest false last_char (output ++ [TOK_COMMA])
    else if c = 0x22 then preprocessLoop rest true last_char (output ++ [TOK_QUOTE])
    else if c = 0x20 ∨ c = 0x09 ∨ c = 0x0A ∨ c = 0x0D then
      preprocessLoop rest false last_char output
    else if c = 0x74 ∧ rest.take 3 = [0x72, 0x75, 0x65] then
      preprocessLoop (rest.drop 3) false last_char (output ++ [TOK_TRUE])
    else if c = 0x66 ∧ rest.take 4 = [0x61, 0x6C, 0x73, 0x65] then
      preprocessLoop (rest.drop 4) false last_char (output ++ [TOK_FALSE])
    else if c = 0x6E ∧ rest.take 3 = [0x75, 0x6C, 0x6C] then
      preprocessLoop (rest.drop 3) false last_char (output ++ [TOK_NULL])
    else preprocessLoop rest false last_char (output ++ [c])
termination_by data => data.length
decreasing_by all_goals (simp_wf; try omega)

/-- The function `JsonPreprocessor::preprocess(data, len)`. -/
def JsonPreprocessor.preprocess (data : List Nat) : List Nat :=
  JsonPreprocessor.preprocessLoop data false 0 []

/-- The bytes one iteration of `JsonPreprocessor::postprocess` appends for the input byte
`c`, where `prev` is the previous input byte `data[i - 1]` (`none` when `i = 0`). -/
def JsonPreprocessor.postprocessByte (prev : Option Nat) (c : Nat) : List Nat :=
  if c ≥ 0xF0 then
    if c = TOK_OBJECT_START then [0x7B]
    else if c = TOK_OBJECT_END then [0x7D]
    else if c = TOK_ARRAY_START then [0x5B]
    else if c = TOK_ARRAY_END then [0x5D]
    else if c = TOK_COLON then [0x3A]
    else if c = TOK_COMMA then [0x2C]
    else if c = TOK_QUOTE then [0x22]
    else if c = TOK_TRUE then [0x74, 0x72, 0x75, 0x65]
    else if c = TOK_FALSE then [0x66, 0x61, 0x6C, 0x73, 0x65]
    else if c = TOK_NULL then [0x6E, 0x75, 0x6C, 0x6C]
    else [c]
  else if c ≥ 128 ∧ c < 192 then
    match prev with
    | some p => [(p + (c - 128)) % 256]
    | none => [c]
  else [c]

/-- The loop `while (i < len)` of `JsonPreprocessor::postprocess`: one input byte per
iteration. -/
def JsonPreprocessor.postprocessLoop : Option Nat → List Nat → List Nat → List Nat
  | _, [], output => output
  | prev, c :: rest, output =>
    postprocessLoop (some c) rest (output ++ JsonPreprocessor.postprocessByte prev c)

/-- The function `JsonPreprocessor::postprocess(data, len)`. -/
def JsonPreprocessor.postprocess (data : List Nat) : List Nat :=
  JsonPreprocessor.postprocessLoop none data []

/-- The loop `for (i = 1; i < len; i++)` of `Utf8Transformer::delta_encode`, with
`prev = data[i - 1]`. The difference is narrowed to `int8_t` and `delta + 128` to
`uint8_t`. -/
def Utf8Transformer.deltaLoop : Nat → List Nat → List Nat → List Nat
  | _, [], output => output
  | prev, c :: rest, output =>
    if c &&& 0xC0 = 0x80 ∧ prev &&& 0xC0 = 0x80 then
      deltaLoop c rest (output ++ [((c + 256 - prev) % 256 + 128) % 256])
    else deltaLoop c rest (output ++ [c])

/-- The function `Utf8Transformer::delta_encode(output, data, len)`: appends to `output`. -/
def Utf8Transformer.delta_encode (output data : List Nat) : List Nat :=
  match data with
  | [] => output
  | first :: rest => Utf8Transformer.deltaLoop first rest (output ++ [first])

/-! ## Whole-buffer variants (`encoder.cpp`, `decoder.cpp`) -/

/-- The function `compress_json`. -/
def compress_json (data : List Nat) : Outcome (List Nat) :=
  compress (JsonPreprocessor.preprocess data)

/-- The function `compress_utf8`. -/
def compress_utf8 (data : List Nat) : Outcome (List Nat) :=
  compress (Utf8Transformer.delta_encode [] data)

/-- The function `compress_advanced`. -/
def compress_advanced (data : List Nat) : Outcome (List Nat) :=
  compress (Utf8Transformer.delta_encode [] (JsonPreprocessor.preprocess data))

/-- The function `decompress_json`. -/
def decompress_json (data : List Nat) : Outcome (List Nat) :=
  (decompress data).bind fun d => .returns (JsonPreprocessor.postprocess d)

/-- The function `decompress_utf8`: applies `delta_encode` to the decoded bytes. -/
def decompress_utf8 (data : List Nat) : Outcome (List Nat) :=
  (decompress data).bind fun d => .returns (Utf8Transformer.delta_encode [] d)

/-- The function `decompress_advanced`. -/
def decompress_advanced (data : List Nat) : Outcome (List Nat) :=
  (decompress data).bind fun d =>
    .returns (JsonPreprocessor.postprocess (Utf8Transformer.delta_encode [] d))

/-- The stream `stream` is a sequence of whole blocks that the decoder, started on an
empty output, turns into `decoded` without an out-of-bounds read: whatever follows the
stream is decoded on top of `decoded`. -/
def Emits (stream decoded : List Nat) : Prop :=
  ∀ rest, decodeFrom (stream ++ rest) [] = decodeFrom rest decoded

/-- Every entry of the hash table is a position before `pos`. -/
def TableBelow (table : HashTable) (pos : Nat) : Prop :=
  ∀ h p, table h = some p → p < pos

/-- A match of length `mlen` at distance `dist` is a true repetition at position `pos` of
`data` that a short-match block can carry. -/
def MatchAt (data : List Nat) (pos mlen dist : Nat) : Prop :=
  pos + mlen ≤ data.length ∧ 1 ≤ dist ∧ dist ≤ 65535 ∧ dist ≤ pos
    ∧ ∀ j, j < mlen → byteAt data (pos - dist + j) = byteAt data (pos + j)

/-! ## Loop bodies and scanner positions used to state the claims -/

/-- One iteration of the body of the loop of `encoder_chunk` at a position `i < len`:
the position, the pending literal bytes and the output after the iteration. -/
def encoderChunkBody (data : List Nat) (i : Nat) (lit out : List Nat) :
    Nat × List Nat × List Nat :=
  let r := find_match data i
  if r.1 ≥ 3 then
    (i + min r.1 130, [], flush_literals out lit ++ matchBlockBytes (min r.1 130) r.2)
  else
    let lit := lit ++ [byteAt data i]
    if lit.length = 127 then (i + 1, [], flush_literals out lit) else (i + 1, lit, out)

/-- The states `(i, lit, out)` in which the loop of `encoder_chunk` stands at its head
during a call on the chunk `data` that starts with the pending literal bytes `lit0`. -/
inductive ChunkLoopState (data lit0 : List Nat) : Nat → List Nat → List Nat → Prop where
  | start : ChunkLoopState data lit0 0 lit0 []
  | step {i : Nat} {lit out : List Nat} :
      ChunkLoopState data lit0 i lit out → i < data.length →
      ChunkLoopState data lit0 (encoderChunkBody data i lit out).1
        (encoderChunkBody data i lit out).2.1 (encoderChunkBody data i lit out).2.2

/-- One iteration of the loop of `JsonPreprocessor::preprocess` on the byte `c = data[i]`
followed by `rest`: the number of bytes of `rest` the iteration steps over, the new
`in_string`, the new `last_char`, and the bytes it appends to the output. -/
def JsonPreprocessor.preprocessStep (c : Nat) (rest : List Nat) (in_string : Bool)
    (last_char : Nat) : Nat × Bool × Nat × List Nat :=
  if in_string then
    if c = escapedQuoteLiteral ∧ rest.head? = some 0x22 then (1, true, last_char, [c, 0x22])
    else if c = 0x22 then (0, false, last_char, [TOK_QUOTE])
    else if last_char ≠ 0 ∧ c &&& 0xC0 = 0x80 ∧ last_char &&& 0xC0 = 0x80 then
      (0, true, c, [(c + 256 - last_char + 128) % 256])
    else (0, true, c, [c])
  else
    if c = 0x7B then (0, false, last_char, [TOK_OBJECT_START])
    else if c = 0x7D then (0, false, last_char, [TOK_OBJECT_END])
    else if c = 0x5B then (0, false, last_char, [TOK_ARRAY_START])
    else if c = 0x5D then (0, false, last_char, [TOK_ARRAY_END])
    else if c = 0x3A then (0, false, last_char, [TOK_COLON])
    else if c = 0x2C then (0, false, last_char, [TOK_COMMA])
    else if c = 0x22 then (0, true, last_char, [TOK_QUOTE])
    else if c = 0x20 ∨ c = 0x09 ∨ c = 0x0A ∨ c = 0x0D then (0, false, last_char, [])
    else if c = 0x74 ∧ rest.take 3 = [0x72, 0x75, 0x65] then (3, false, last_char, [TOK_TRUE])
    else if c = 0x66 ∧ rest.take 4 = [0x61, 0x6C, 0x73, 0x65] then
      (4, false, last_char, [TOK_FALSE])
    else if c = 0x6E ∧ rest.take 3 = [0x75, 0x6C, 0x6C] then (3, false, last_char, [TOK_NULL])
    else (0, false, last_char, [c])

/-- The state of the scanner of `preprocess` when its cursor stands at position `p` of
`data`, for a scan that starts at position 0 in the state `(in_string, last_char,
output)`: `none` when the cursor never stands at `p` (the position lies inside a
keyword spelling or an escape the scanner steps over, or beyond the end). -/
def JsonPreprocessor.scannerAt :
    List Nat → Bool → Nat → List Nat → Nat → Option (Bool × Nat × List Nat)
  | _, in_string, last_char, output, 0 => some (in_string, last_char, output)
  | [], _, _, _, _ + 1 => none
  | c :: rest, in_string, last_char, output, p + 1 =>
    let s := JsonPreprocessor.preprocessStep c rest in_string last_char
    if s.1 ≤ p then scannerAt (rest.drop s.1) s.2.1 s.2.2.1 (output ++ s.2.2.2) (p - s.1)
    else none
termination_by _ _ _ _ p => p
decreasing_by simp_wf; omega

/-! ## Blocks as the encoders write them -/

/-- A block at the place where `compress` or `compress_fast` writes it: a flushed
literal buffer, one short-match segment, or one extended match. -/
inductive EmittedBlock where
  | literal (bytes : List Nat)
  | shortMatch (len dist : Nat)
  | extendedMatch (len dist : Nat)
  deriving DecidableEq, Repr

/-- The bytes the encoder writes for a block: `flush_literals`, the segment loop, and the
extended-match branch of `compress`. -/
def EmittedBlock.wire : EmittedBlock → List Nat
  | .literal bytes => bytes.length % 256 :: bytes
  | .shortMatch len dist => matchBlockBytes len dist
  | .extendedMatch len dist =>
    [0xFF, (len % 65536) &&& 0xFF, ((len % 65536) >>> 8) &&& 0xFF,
      (dist % 65536) &&& 0xFF, ((dist % 65536) >>> 8) &&& 0xFF]

/-- The number of input bytes a block stands for. -/
def EmittedBlock.covers : EmittedBlock → Nat
  | .literal bytes => bytes.length
  | .shortMatch len _ => len
  | .extendedMatch len _ => len

/-- The bounds of the format for a block written after `before` input bytes have been
encoded. -/
def EmittedBlock.InBounds (before : Nat) : EmittedBlock → Prop
  | .literal bytes => 1 ≤ bytes.length ∧ bytes.length ≤ 127
  | .shortMatch len dist => 3 ≤ len ∧ len ≤ 130 ∧ 1 ≤ dist ∧ dist ≤ 65535 ∧ dist ≤ before
  | .extendedMatch len dist =>
    3 ≤ len ∧ len ≤ 65535 ∧ 1 ≤ dist ∧ dist ≤ 65535 ∧ dist ≤ before

/-- The bytes of a sequence of blocks. -/
def wireBlocks : List EmittedBlock → List Nat
  | [] => []
  | b :: bs => b.wire ++ wireBlocks bs

/-- The number of input bytes a sequence of blocks stands for. -/
def coveredBytes : List EmittedBlock → Nat
  | [] => 0
  | b :: bs => b.covers + coveredBytes bs

/-- Every block of the sequence is within bounds at the place where it stands, the first
block being written after `before` input bytes. -/
def blocksInBounds (before : Nat) : List EmittedBlock → Prop
  | [] => True
  | b :: bs => b.InBounds before ∧ blocksInBounds (before + b.covers) bs

/-- The output `out` of an encoder is the byte sequence of blocks that are all within
bounds and stand for `n` input bytes. -/
def EmittedInBounds (out : List Nat) (n : Nat) : Prop :=
  ∃ blocks, out = wireBlocks blocks ∧ blocksInBounds 0 blocks ∧ coveredBytes blocks = n

/-! ## States of the thorough encoder -/

/-- One iteration of the body of the main loop of `compress` at a position `i < len`:
the position, the literal buffer, the output and the table after the iteration. -/
def compressBody (data : List Nat) (i : Nat) (litbuf out : List Nat) (table : HashTable) :
    Outcome (Nat × List Nat × List Nat × HashTable) :=
  let r := find_match_fast data i table
  let mlen := r.1
  let dist := r.2.1
  if mlen ≥ 4 then
    let out := flush_literals out litbuf
    if mlen > 130 then
      let l16 := (min mlen 65535) % 65536
      let d16 := dist % 65536
      .returns (i + l16, [],
        out ++ [0xFF, l16 &&& 0xFF, (l16 >>> 8) &&& 0xFF, d16 &&& 0xFF, (d16 >>> 8) &&& 0xFF],
        r.2.2)
    else
      match emitSegments dist (mlen + 1) mlen i out with
      | .returns (i2, out2) => .returns (i2, [], out2, r.2.2)
      | .undefinedBehaviour => .undefinedBehaviour
      | .outOfFuel => .outOfFuel
  else
    let litbuf := litbuf ++ [byteAt data i]
    if litbuf.length = 127 then .returns (i + 1, [], flush_literals out litbuf, r.2.2)
    else .returns (i + 1, litbuf, out, r.2.2)

/-- The states `(i, litbuf, out, table)` in which the main loop of `compress` stands at
its head during the run on `data`. -/
inductive CompressLoopState (data : List Nat) :
    Nat → List Nat → List Nat → HashTable → Prop where
  | start : CompressLoopState data 0 [] [] HashTable.empty
  | step {i i2 : Nat} {lit lit2 out out2 : List Nat} {table table2 : HashTable} :
      CompressLoopState data i lit out table → i < data.length →
      compressBody data i lit out table = .returns (i2, lit2, out2, table2) →
      CompressLoopState data i2 lit2 out2 table2

/-- The run of `compress` on `data` never takes the extended-match branch: every match
length the finder returns during the run is at most 130. -/
def TakesNoExtendedBranch (data : List Nat) : Prop :=
  ∀ i lit out table, CompressLoopState data i lit out table → i < data.length →
    (find_match_fast data i table).1 ≤ 130

/-- The `m` bytes of `data` from `s` on equal the `m` bytes from `pos` on. -/
def CommonPrefix (data : List Nat) (s pos m : Nat) : Prop :=
  ∀ j, j < m → byteAt data (s + j) = byteAt data (pos + j)

/-- Among the starts `s` with `lo ≤ s < e`, the pair `(len, dist)` is the result of the
scan of `find_match`: `len = 0` when no start has a common prefix (capped at `cap`) of at
least 3 bytes; otherwise `len` is the greatest capped common-prefix length, it is at
least 3, and `dist` is the distance of the first start, in scan order, that attains it. -/
def FirstLongest (data : List Nat) (pos cap lo e len dist : Nat) : Prop :=
  (len = 0 ∧ ∀ s, lo ≤ s → s < e → extendMatch data s pos cap 0 < 3)
    ∨ (3 ≤ len ∧ ∃ best, lo ≤ best ∧ best < e ∧ dist = pos - best
        ∧ extendMatch data best pos cap 0 = len
        ∧ (∀ s, lo ≤ s → s < e → extendMatch data s pos cap 0 ≤ len)
        ∧ (∀ s, lo ≤ s → s < best → extendMatch data s pos cap 0 < len))

/-! ## Theorems -/

/-! ### Byte arithmetic -/

theorem header_literal_iff : ∀ h < 256, (h &&& 0x80 = 0 ↔ h < 128) := by
  set_option maxRecDepth 100000 in decide

theorem header_match_len : ∀ n < 128, ((0x80 ||| n) &&& 0x80 ≠ 0 ∧ (0x80 ||| n) &&& 0x7F = n) := by
  set_option maxRecDepth 100000 in decide

theorem le_bytes_value (lo hi : Nat) (hlo : lo < 256) (hhi : hi < 256) :
    (lo ||| (hi <<< 8)) % 65536 = lo + 256 * hi := by
  have h1 : lo ||| (hi <<< 8) = lo + 256 * hi := by
    rw [Nat.shiftLeft_eq, Nat.lor_comm, Nat.add_comm, Nat.mul_comm]
    exact (Nat.mul_add_lt_is_or (i := 8) (by simpa using hlo) hi).symm
  rw [h1]
  omega

/-! ### The copy loop -/

theorem matchBytes_length (out : List Nat) (len dist : Nat) :
    (matchBytes out len dist).length = len := by
  simp [matchBytes]

theorem matchBytes_succ (out : List Nat) (k dist : Nat) :
    matchBytes out (k + 1) dist
      = matchBytes out k dist ++ [out.getD (out.length - dist + k % dist) 0] := by
  simp [matchBytes, List.range_succ]

theorem matchBytes_getElem? (out : List Nat) (len dist k : Nat) (hk : k < len) :
    (matchBytes out len dist)[k]? = some (out.getD (out.length - dist + k % dist) 0) := by
  simp [matchBytes, List.getElem?_range hk]

theorem copyMatch_read (P : List Nat) (d k : Nat) (hd1 : 1 ≤ d) (hd : d ≤ P.length) :
    (P ++ matchBytes P k d)[P.length - d + k]?
      = some (P.getD (P.length - d + k % d) 0) := by
  by_cases hk : k < d
  · have hlt : P.length - d + k < P.length := by omega
    rw [List.getElem?_append_left hlt, Nat.mod_eq_of_lt hk]
    simp [List.getD_eq_getElem?_getD, List.getElem?_eq_getElem hlt]
  · have hge : P.length ≤ P.length - d + k := by omega
    rw [List.getElem?_append_right hge]
    have hidx : P.length - d + k - P.length = k - d := by omega
    rw [hidx, matchBytes_getElem? P k d (k - d) (by omega)]
    have hmod : (k - d) % d = k % d := by
      have : k = (k - d) + d := by omega
      conv_rhs => rw [this, Nat.add_mod_right]
    rw [hmod]

theorem copyMatch_spec (P : List Nat) (d : Nat) (hd1 : 1 ≤ d) (hd : d ≤ P.length) :
    ∀ n k, copyMatch (P.length - d) n k (P ++ matchBytes P k d)
      = .returns (P ++ matchBytes P (k + n) d) := by
  intro n
  induction n with
  | zero => intro k; simp [copyMatch]
  | succ n ih =>
    intro k
    rw [copyMatch, copyMatch_read P d k hd1 hd]
    simp only
    rw [List.append_assoc, ← matchBytes_succ, ih (k + 1)]
    congr 3
    omega

theorem copyMatch_from_start (P : List Nat) (d n : Nat) (hd1 : 1 ≤ d) (hd : d ≤ P.length) :
    copyMatch (P.length - d) n 0 P = .returns (P ++ matchBytes P n d) := by
  have h := copyMatch_spec P d hd1 hd n 0
  simpa [matchBytes] using h

/-! ### Fuel of the decoder loop -/

theorem decompressLoop_fuel (f1 : Nat) :
    ∀ (f2 : Nat) (data out : List Nat), data.length < f1 → data.length < f2 →
      decompressLoop f1 data out = decompressLoop f2 data out := by
  induction f1 with
  | zero => intro f2 data out h1; omega
  | succ f1 ih =>
    intro f2 data out h1 h2
    cases f2 with
    | zero => omega
    | succ f2 =>
      cases data with
      | nil => simp [decompressLoop]
      | cons h rest =>
        simp only [List.length_cons] at h1 h2
        simp only [decompressLoop]
        split
        · apply ih
          · simp only [List.length_drop]; omega
          · simp only [List.length_drop]; omega
        · cases rest with
          | nil => rfl
          | cons d0 rest1 =>
            cases rest1 with
            | nil => rfl
            | cons d1 rest2 =>
              simp only [List.length_cons] at h1 h2
              simp only
              split
              · rfl
              · generalize copyMatch _ _ _ _ = r
                cases r with
                | returns o => exact ih f2 rest2 o (by omega) (by omega)
                | undefinedBehaviour => rfl
                | outOfFuel => rfl

theorem decompressLoop_eq_decodeFrom (fuel : Nat) (data out : List Nat)
    (h : data.length < fuel) : decompressLoop fuel data out = decodeFrom data out :=
  decompressLoop_fuel fuel (data.length + 1) data out h (Nat.lt_succ_self _)

theorem decompress_eq_decodeFrom (data : List Nat) : decompress data = decodeFrom data [] :=
  rfl

theorem decodeFrom_nil (out : List Nat) : decodeFrom [] out = .returns out := rfl

theorem decodeFrom_literal (h : Nat) (rest out : List Nat) (hh : h &&& 0x80 = 0) :
    decodeFrom (h :: rest) out
      = decodeFrom (rest.drop (if h > rest.length then rest.length else h))
          (out ++ rest.take (if h > rest.length then rest.length else h)) := by
  unfold decodeFrom
  simp only [List.length_cons, decompressLoop, hh, if_true]
  apply decompressLoop_fuel
  · simp only [List.length_drop]; omega
  · omega

theorem decodeFrom_match_truncated (h : Nat) (rest out : List Nat) (hh : h &&& 0x80 ≠ 0)
    (hlen : rest.length < 2) : decodeFrom (h :: rest) out = .returns out := by
  unfold decodeFrom
  simp only [List.length_cons, decompressLoop, hh, if_false]
  match rest, hlen with
  | [], _ => rfl
  | [_], _ => rfl

theorem decodeFrom_match (h d0 d1 : Nat) (rest out : List Nat) (hh : h &&& 0x80 ≠ 0)
    (hd1 : 1 ≤ (d0 ||| (d1 <<< 8)) % 65536)
    (hd : (d0 ||| (d1 <<< 8)) % 65536 ≤ out.length) :
    decodeFrom (h :: d0 :: d1 :: rest) out
      = decodeFrom rest
          (out ++ matchBytes out ((h &&& 0x7F) + 3) ((d0 ||| (d1 <<< 8)) % 65536)) := by
  unfold decodeFrom
  simp only [List.length_cons, decompressLoop, hh, if_false]
  rw [if_neg (by omega), copyMatch_from_start out _ _ hd1 hd]
  simp only
  apply decompressLoop_fuel
  · omega
  · omega

theorem decodeFrom_match_oob (h d0 d1 : Nat) (rest out : List Nat) (hh : h &&& 0x80 ≠ 0)
    (hd : out.length < (d0 ||| (d1 <<< 8)) % 65536) :
    decodeFrom (h :: d0 :: d1 :: rest) out = .undefinedBehaviour := by
  unfold decodeFrom
  simp only [List.length_cons, decompressLoop, hh, if_false]
  rw [if_pos (by omega)]

/-! ### Decoding whole blocks -/

theorem decodeFrom_literal_block (bytes rest out : List Nat) (hlen : bytes.length ≤ 127) :
    decodeFrom (bytes.length :: (bytes ++ rest)) out = decodeFrom rest (out ++ bytes) := by
  have hh : bytes.length &&& 0x80 = 0 :=
    (header_literal_iff bytes.length (by omega)).2 (by omega)
  rw [decodeFrom_literal _ _ _ hh]
  have hle : ¬ bytes.length > (bytes ++ rest).length := by
    simp only [List.length_append]; omega
  rw [if_neg hle, List.drop_left, List.take_left]

theorem decodeFrom_match_block (len dist : Nat) (rest out : List Nat)
    (hlen3 : 3 ≤ len) (hlen : len ≤ 130) (hd1 : 1 ≤ dist) (hd16 : dist ≤ 65535)
    (hd : dist ≤ out.length) :
    decodeFrom ((0x80 ||| (len - 3)) :: dist % 256 :: dist / 256 :: rest) out
      = decodeFrom rest (out ++ matchBytes out len dist) := by
  have hhdr := header_match_len (len - 3) (by omega)
  have hdist : (dist % 256 ||| ((dist / 256) <<< 8)) % 65536 = dist := by
    rw [le_bytes_value _ _ (Nat.mod_lt _ (by decide)) (by omega)]
    omega
  rw [decodeFrom_match _ _ _ _ _ hhdr.1 (by omega) (by omega), hhdr.2, hdist]
  congr 3
  omega

/-! ### Streams of whole blocks -/

theorem Emits.nil : Emits [] [] := fun _ => rfl

theorem Emits.decompress {stream decoded : List Nat} (h : Emits stream decoded) :
    decompress stream = .returns decoded := by
  have := h []
  rwa [List.append_nil, decodeFrom_nil] at this

theorem Emits.flush {out P : List Nat} (h : Emits out P) (lit : List Nat)
    (hlit : lit.length ≤ 127) : Emits (flush_literals out lit) (P ++ lit) := by
  unfold flush_literals
  cases lit with
  | nil => simpa using h
  | cons b bs =>
    intro rest
    have hmod : (b :: bs).length % 256 = (b :: bs).length := Nat.mod_eq_of_lt (by omega)
    simp only [List.isEmpty_cons, Bool.false_eq_true, if_false, hmod, List.append_assoc]
    rw [h, List.cons_append, decodeFrom_literal_block (b :: bs) rest P hlit]

theorem matchBlockBytes_eq (take dist : Nat) (h3 : 3 ≤ take) (h130 : take ≤ 130)
    (hd : dist ≤ 65535) :
    matchBlockBytes take dist = [0x80 ||| (take - 3), dist % 256, dist / 256] := by
  have e1 : (take + 2 ^ 64 - 3) % 2 ^ 64 % 256 = take - 3 := by omega
  have e2 : ∀ n < 128, (0x80 ||| n) % 256 = 0x80 ||| n := by
    set_option maxRecDepth 100000 in decide
  have e3 : dist % 65536 = dist := Nat.mod_eq_of_lt (by omega)
  have e4 : ∀ x : Nat, x &&& 0xFF = x % 256 := fun x => Nat.and_pow_two_sub_one_eq_mod x 8
  unfold matchBlockBytes
  have e5 : dist / 2 ^ 8 % 256 = dist / 256 := by omega
  rw [e1, e2 _ (by omega), e3, e4, e4, Nat.shiftRight_eq_div_pow, e5]

theorem Emits.matchBlock {out P : List Nat} (h : Emits out P) (take dist : Nat)
    (h3 : 3 ≤ take) (h130 : take ≤ 130) (hd1 : 1 ≤ dist) (hd16 : dist ≤ 65535)
    (hd : dist ≤ P.length) :
    Emits (out ++ matchBlockBytes take dist) (P ++ matchBytes P take dist) := by
  intro rest
  rw [matchBlockBytes_eq take dist h3 h130 hd16, List.append_assoc, h]
  exact decodeFrom_match_block take dist rest P h3 h130 hd1 hd16 hd

theorem emitSegments_single (dist mlen i : Nat) (out : List Nat) (h1 : 1 ≤ mlen)
    (h130 : mlen ≤ 130) :
    emitSegments dist (mlen + 1) mlen i out
      = .returns (i + mlen, out ++ matchBlockBytes mlen dist) := by
  obtain ⟨m, rfl⟩ : ∃ m, mlen = m + 1 := ⟨mlen - 1, by omega⟩
  have hmin : min (m + 1) 130 = m + 1 := by omega
  simp [emitSegments, hmin]

/-! ### Matches are repetitions of the input -/

theorem take_succ_byteAt (data : List Nat) (i : Nat) (hi : i < data.length) :
    data.take (i + 1) = data.take i ++ [byteAt data i] := by
  rw [List.take_succ, List.getElem?_eq_getElem hi]
  simp [byteAt, List.getD_eq_getElem?_getD, List.getElem?_eq_getElem hi]

theorem MatchAt.periodic {data : List Nat} {pos mlen dist : Nat}
    (h : MatchAt data pos mlen dist) :
    ∀ k, k < mlen → byteAt data (pos + k) = byteAt data (pos - dist + k % dist) := by
  obtain ⟨_, hd1, _, hd, hm⟩ := h
  intro k
  induction k using Nat.strong_induction_on with
  | _ k ih =>
    intro hk
    by_cases hkd : k < dist
    · rw [Nat.mod_eq_of_lt hkd, hm k hk]
    · have hmod : k % dist = (k - dist) % dist := by
        have : k = (k - dist) + dist := by omega
        conv_lhs => rw [this, Nat.add_mod_right]
      have h1 := hm k hk
      have h2 := ih (k - dist) (by omega) (by omega)
      have e : pos - dist + k = pos + (k - dist) := by omega
      rw [hmod, ← h2, ← h1, e]

theorem MatchAt.matchBytes_eq {data : List Nat} {pos mlen dist : Nat}
    (h : MatchAt data pos mlen dist) :
    data.take pos ++ matchBytes (data.take pos) mlen dist = data.take (pos + mlen) := by
  have hper := h.periodic
  obtain ⟨hlen, hd1, _, hd, _⟩ := h
  have hposlen : (data.take pos).length = pos := by
    rw [List.length_take]; omega
  rw [List.take_add]
  congr 1
  apply List.ext_getElem?
  intro k
  by_cases hk : k < mlen
  · have hlt : pos - dist + k % dist < pos := by
      have := Nat.mod_lt k (show dist > 0 by omega)
      omega
    have hlt3 : pos + k < data.length := by omega
    have hL : (data.take pos).getD (pos - dist + k % dist) 0
        = byteAt data (pos - dist + k % dist) := by
      simp [byteAt, List.getD_eq_getElem?_getD, List.getElem?_take_of_lt hlt]
    have hR : data[pos + k]? = some (byteAt data (pos + k)) := by
      simp [byteAt, List.getD_eq_getElem?_getD, List.getElem?_eq_getElem hlt3]
    rw [matchBytes_getElem? _ _ _ _ hk, hposlen, List.getElem?_take_of_lt hk,
      List.getElem?_drop, hL, hR, hper k hk]
  · rw [List.getElem?_eq_none (by rw [matchBytes_length]; omega),
      List.getElem?_eq_none (by rw [List.length_take]; omega)]

/-! ### The match finders -/

theorem extendMatch_spec (data : List Nat) (cand pos : Nat) :
    ∀ room mlen, (∀ j, j < mlen → byteAt data (cand + j) = byteAt data (pos + j)) →
      mlen ≤ extendMatch data cand pos room mlen
        ∧ extendMatch data cand pos room mlen ≤ mlen + room
        ∧ ∀ j, j < extendMatch data cand pos room mlen →
            byteAt data (cand + j) = byteAt data (pos + j) := by
  intro room
  induction room with
  | zero => intro mlen h; exact ⟨Nat.le_refl _, Nat.le_refl _, h⟩
  | succ room ih =>
    intro mlen h
    rw [extendMatch]
    split
    · next heq =>
      have hstep : ∀ j, j < mlen + 1 → byteAt data (cand + j) = byteAt data (pos + j) := by
        intro j hj
        by_cases hjm : j < mlen
        · exact h j hjm
        · have : j = mlen := by omega
          rw [this]; exact heq
      obtain ⟨h1, h2, h3⟩ := ih (mlen + 1) hstep
      exact ⟨by omega, by omega, h3⟩
    · exact ⟨Nat.le_refl _, by omega, h⟩

theorem TableBelow.set {table : HashTable} {pos : Nat} (h : TableBelow table pos) (k : Nat) :
    TableBelow (table.set k pos) (pos + 1) := by
  intro k2 p hp
  unfold HashTable.set at hp
  split at hp
  · cases hp; omega
  · have := h k2 p hp; omega

theorem TableBelow.mono {table : HashTable} {pos pos2 : Nat} (h : TableBelow table pos)
    (hle : pos ≤ pos2) : TableBelow table pos2 :=
  fun k p hp => Nat.lt_of_lt_of_le (h k p hp) hle

theorem TableBelow.empty (pos : Nat) : TableBelow HashTable.empty pos := by
  intro k p hp
  simp [HashTable.empty] at hp

theorem matchAt_of_candidate (data : List Nat) (pos cand cap : Nat) (hc : cand < pos)
    (hlen : pos + 4 ≤ data.length) (hcap : 4 ≤ cap) (hd : pos - cand ≤ 65535)
    (h0 : byteAt data cand = byteAt data pos)
    (h1 : byteAt data (cand + 1) = byteAt data (pos + 1))
    (h2 : byteAt data (cand + 2) = byteAt data (pos + 2))
    (h3 : byteAt data (cand + 3) = byteAt data (pos + 3)) :
    4 ≤ extendMatch data cand pos (min (data.length - pos) cap - 4) 4
      ∧ extendMatch data cand pos (min (data.length - pos) cap - 4) 4
          ≤ min (data.length - pos) cap
      ∧ MatchAt data pos (extendMatch data cand pos (min (data.length - pos) cap - 4) 4)
          (pos - cand) := by
  have h4 : ∀ j, j < 4 → byteAt data (cand + j) = byteAt data (pos + j) := by
    intro j hj
    match j, hj with
    | 0, _ => exact h0
    | 1, _ => exact h1
    | 2, _ => exact h2
    | 3, _ => exact h3
  obtain ⟨e1, e2, e3⟩ := extendMatch_spec data cand pos (min (data.length - pos) cap - 4) 4 h4
  refine ⟨e1, by omega, by omega, by omega, hd, by omega, ?_⟩
  intro j hj
  have : pos - (pos - cand) = cand := by omega
  rw [this]
  exact e3 j hj

theorem find_match_ultrafast_spec (data : List Nat) (pos : Nat) (table : HashTable)
    (ht : TableBelow table pos) :
    TableBelow (find_match_ultrafast data pos table).2.2 (pos + 1)
      ∧ (4 ≤ (find_match_ultrafast data pos table).1 →
          (find_match_ultrafast data pos table).1 ≤ 64
            ∧ MatchAt data pos (find_match_ultrafast data pos table).1
                (find_match_ultrafast data pos table).2.1) := by
  unfold find_match_ultrafast
  split
  · exact ⟨ht.mono (Nat.le_succ _), by intro h; simp at h⟩
  · next hlen =>
    refine ⟨ht.set _, ?_⟩
    simp only
    cases hc : table (hash4 data pos) with
    | none => intro h; simp at h
    | some cand =>
      have hcand := ht _ _ hc
      simp only
      split
      · next hd =>
        split
        · next heq =>
          simp only [List.cons.injEq, and_true] at heq
          obtain ⟨h0, h1, h2, h3⟩ := heq
          intro _
          have := matchAt_of_candidate data pos cand 64 hcand (by omega) (by decide) hd
            h0 h1 h2 h3
          exact ⟨by omega, this.2.2⟩
        · intro h; simp at h
      · intro h; simp at h

theorem find_match_fast_spec (data : List Nat) (pos : Nat) (table : HashTable)
    (ht : TableBelow table pos) :
    TableBelow (find_match_fast data pos table).2.2 (pos + 1)
      ∧ (4 ≤ (find_match_fast data pos table).1 →
          (find_match_fast data pos table).1 ≤ 258
            ∧ MatchAt data pos (find_match_fast data pos table).1
                (find_match_fast data pos table).2.1) := by
  unfold find_match_fast
  split
  · exact ⟨ht.mono (Nat.le_succ _), by intro h; simp at h⟩
  · next hlen =>
    refine ⟨ht.set _, ?_⟩
    simp only
    cases hc : table (hash4 data pos) with
    | none => intro h; simp at h
    | some cand =>
      have hcand := ht _ _ hc
      simp only
      split
      · next hd =>
        split
        · next heq =>
          obtain ⟨h0, h1, h2, h3⟩ := heq
          intro _
          have := matchAt_of_candidate data pos cand 258 hcand (by omega) (by decide) hd
            h0 h1 h2 h3
          exact ⟨by omega, this.2.2⟩
        · intro h; simp at h
      · intro h; simp at h

/-! ### Claims about the decoder -/

/-- C7 (self-overlapping copy): on top of any already decoded output `P`, a short-match
block with header `0x80 | (L - 3)`, `3 ≤ L ≤ 130`, and a little-endian distance
`d = lo + 256 * hi` with `1 ≤ d ≤ |P|` is consumed whole (three bytes) and appends exactly
`L` bytes, the `k`-th of which is `P[|P| - d + (k mod d)]`, also when `d < L`. -/
theorem C7_self_overlapping_copy (P rest : List Nat) (L lo hi : Nat)
    (hL3 : 3 ≤ L) (hL : L ≤ 130) (hlo : lo < 256) (hhi : hi < 256)
    (hd1 : 1 ≤ lo + 256 * hi) (hd : lo + 256 * hi ≤ P.length) :
    decodeFrom ((0x80 ||| (L - 3)) :: lo :: hi :: rest) P
        = decodeFrom rest (P ++ matchBytes P L (lo + 256 * hi))
      ∧ (matchBytes P L (lo + 256 * hi)).length = L
      ∧ ∀ k, k < L →
          (matchBytes P L (lo + 256 * hi))[k]?
            = P[P.length - (lo + 256 * hi) + k % (lo + 256 * hi)]? := by
  refine ⟨?_, matchBytes_length _ _ _, ?_⟩
  · have h := decodeFrom_match_block L (lo + 256 * hi) rest P hL3 hL hd1 (by omega) hd
    have e1 : (lo + 256 * hi) % 256 = lo := by omega
    have e2 : (lo + 256 * hi) / 256 = hi := by omega
    rw [e1, e2] at h
    exact h
  · intro k hk
    rw [matchBytes_getElem? _ _ _ _ hk]
    have hlt : k % (lo + 256 * hi) < lo + 256 * hi := Nat.mod_lt _ (by omega)
    have hidx : P.length - (lo + 256 * hi) + k % (lo + 256 * hi) < P.length := by omega
    simp [List.getD_eq_getElem?_getD, List.getElem?_eq_getElem hidx]

/-- Witness for C7: from the output "ab", a match of length 6 at distance 2 appends
"ababab". -/
theorem C7_self_overlapping_copy_witness :
    decodeFrom [0x83, 2, 0] [97, 98] = .returns [97, 98, 97, 98, 97, 98, 97, 98] :=
  (C7_self_overlapping_copy [97, 98] [] 6 2 0 (by decide) (by decide) (by decide)
    (by decide) (by decide) (by decide)).1

/-- C8 (malformed stream): a stream that begins with the match header `0x80` followed by
any two distance bytes is not rejected: the decoder has no distance check and reads the
empty output vector out of bounds. -/
theorem C8_match_without_output_reads_out_of_bounds (d0 d1 : Nat) (rest : List Nat) :
    decompress (0x80 :: d0 :: d1 :: rest) = .undefinedBehaviour := by
  show decodeFrom (0x80 :: d0 :: d1 :: rest) [] = .undefinedBehaviour
  by_cases hd : (d0 ||| (d1 <<< 8)) % 65536 = 0
  · unfold decodeFrom
    simp [decompressLoop, hd, copyMatch]
  · exact decodeFrom_match_oob _ _ _ _ _ (by decide) (by simp only [List.length_nil]; omega)

theorem decodeFrom_abc_then_ff (tail : List Nat) :
    decodeFrom (3 :: 97 :: 98 :: 99 :: 0xFF :: 3 :: 0 :: tail) []
      = decodeFrom tail ([97, 98, 99] ++ matchBytes [97, 98, 99] 130 3) := by
  have h0 := decodeFrom_literal_block [97, 98, 99] (0xFF :: 3 :: 0 :: tail) [] (by decide)
  refine Eq.trans h0 ?_
  have h := decodeFrom_match_block 130 3 tail ([] ++ [97, 98, 99])
    (by decide) (by decide) (by decide) (by decide) (by decide)
  rw [show (0x80 ||| (130 - 3) : Nat) = 0xFF from by decide,
    show (3 % 256 : Nat) = 3 from rfl, show (3 / 256 : Nat) = 0 from rfl] at h
  exact h

/-- C9 (truncated trailing block) fails after a stream with an extended block. The
stream `03 61 62 63 FF 03 00 03 00` is the literal block "abc" followed by an extended
match of length 3 at distance 3, both within the bounds of the format. Followed by the
lone match header `0x85`, the decoder does not return what it returns on the stream alone:
the byte `0x85` is appended to the output as a literal byte. The stream `01 61 FF 83 00 01
00` is what `compress` writes for 132 equal bytes (a literal and an extended match of
length 131 at distance 1); followed by the truncated match `85 07` the decoder reads the
output vector out of bounds. -/
theorem C9_truncated_block_after_extended_block :
    (wireBlocks [.literal [97, 98, 99], .extendedMatch 3 3] = [3, 97, 98, 99, 0xFF, 3, 0, 3, 0]
        ∧ blocksInBounds 0 [.literal [97, 98, 99], .extendedMatch 3 3]
        ∧ decompress [3, 97, 98, 99, 0xFF, 3, 0, 3, 0]
          = .returns ([97, 98, 99] ++ matchBytes [97, 98, 99] 130 3 ++ [0])
        ∧ decompress ([3, 97, 98, 99, 0xFF, 3, 0, 3, 0] ++ [0x85])
          = .returns ([97, 98, 99] ++ matchBytes [97, 98, 99] 130 3 ++ [0, 0x85])
        ∧ decompress ([3, 97, 98, 99, 0xFF, 3, 0, 3, 0] ++ [0x85])
          ≠ decompress [3, 97, 98, 99, 0xFF, 3, 0, 3, 0])
      ∧ (compress (List.replicate 132 97) = .returns [1, 97, 0xFF, 0x83, 0, 1, 0]
        ∧ wireBlocks [.literal [97], .extendedMatch 131 1] = [1, 97, 0xFF, 0x83, 0, 1, 0]
        ∧ blocksInBounds 0 [.literal [97], .extendedMatch 131 1]
        ∧ decompress ([1, 97, 0xFF, 0x83, 0, 1, 0] ++ [0x85, 7]) = .undefinedBehaviour) := by
  have hS : decompress [3, 97, 98, 99, 0xFF, 3, 0, 3, 0]
      = .returns ([97, 98, 99] ++ matchBytes [97, 98, 99] 130 3 ++ [0]) := by
    rw [decompress_eq_decodeFrom, decodeFrom_abc_then_ff, decodeFrom_literal 3 [0] _ (by decide)]
    simp only [List.length_singleton, gt_iff_lt, Nat.one_lt_ofNat, if_true,
      List.drop_succ_cons, List.drop_nil, List.take_succ_cons, List.take_zero, decodeFrom_nil]
  have hT : decompress ([3, 97, 98, 99, 0xFF, 3, 0, 3, 0] ++ [0x85])
      = .returns ([97, 98, 99] ++ matchBytes [97, 98, 99] 130 3 ++ [0, 0x85]) := by
    rw [decompress_eq_decodeFrom]
    show decodeFrom (3 :: 97 :: 98 :: 99 :: 0xFF :: 3 :: 0 :: [3, 0, 0x85]) [] = _
    rw [decodeFrom_abc_then_ff, decodeFrom_literal 3 [0, 0x85] _ (by decide)]
    simp only [List.length_cons, List.length_nil, gt_iff_lt, if_true,
      List.drop_succ_cons, List.drop_nil, List.take_succ_cons, List.take_zero, decodeFrom_nil,
      List.drop_zero, List.take_nil]
    rfl
  refine ⟨⟨by decide, ?_, hS, hT, ?_⟩, ?_, by decide, ?_, by decide⟩
  · simp [blocksInBounds, EmittedBlock.InBounds, EmittedBlock.covers]
  · rw [hS, hT]
    intro h
    have hlen := congrArg List.length (Outcome.returns.inj h)
    simp [matchBytes_length] at hlen
  · set_option maxRecDepth 1000000 in decide
  · simp [blocksInBounds, EmittedBlock.InBounds, EmittedBlock.covers]

/-- C10 (header 0xFF): the decoder has no extended-match branch. On the stream
literal "abc", `0xFF`, length 3, distance 3 it takes `0xFF` for a short match of length
130 whose distance is the length field, consumes three bytes, and then reads the distance
field as a literal header: the result has 134 bytes instead of "abcabc". -/
theorem C10_header_ff_decoded_as_short_match :
    decompress [3, 97, 98, 99, 0xFF, 3, 0, 3, 0]
        = .returns ([97, 98, 99] ++ matchBytes [97, 98, 99] 130 3 ++ [0])
      ∧ decompress [3, 97, 98, 99, 0xFF, 3, 0, 3, 0]
        ≠ .returns [97, 98, 99, 97, 98, 99] := by
  have hrun : decompress [3, 97, 98, 99, 0xFF, 3, 0, 3, 0]
      = .returns ([97, 98, 99] ++ matchBytes [97, 98, 99] 130 3 ++ [0]) := by
    have h0 := decodeFrom_literal_block [97, 98, 99] [0xFF, 3, 0, 3, 0] [] (by decide)
    rw [decompress_eq_decodeFrom]
    refine Eq.trans h0 ?_
    have h := decodeFrom_match_block 130 3 [3, 0] ([] ++ [97, 98, 99])
      (by decide) (by decide) (by decide) (by decide) (by decide)
    rw [show (0x80 ||| (130 - 3) : Nat) = 0xFF from by decide,
      show (3 % 256 : Nat) = 3 from rfl, show (3 / 256 : Nat) = 0 from rfl] at h
    rw [h, decodeFrom_literal 3 [0] _ (by decide)]
    simp only [List.length_singleton, List.nil_append, gt_iff_lt, Nat.one_lt_ofNat, if_true,
      List.drop_succ_cons, List.drop_nil, List.take_succ_cons, List.take_zero, decodeFrom_nil]
  refine ⟨hrun, ?_⟩
  rw [hrun]
  intro h
  have hlen := congrArg List.length (Outcome.returns.inj h)
  simp [matchBytes_length] at hlen

/-! ### Round trip of the fast encoder -/

theorem compressFastLoop_correct (data : List Nat) :
    ∀ (fuel i : Nat) (lit out : List Nat) (table : HashTable) (P : List Nat),
      data.length - i < fuel → i ≤ data.length → lit.length < 127 →
      data.take i = P ++ lit → Emits out P → TableBelow table i →
      ∃ C, compressFastLoop data fuel i lit out table = .returns C ∧ Emits C data := by
  intro fuel
  induction fuel with
  | zero => intro i lit out table P hf; omega
  | succ fuel ih =>
    intro i lit out table P hf hi hlit htake hem htab
    rw [compressFastLoop]
    by_cases hlt : i < data.length
    · rw [if_pos hlt]
      obtain ⟨htab2, hmatch⟩ := find_match_ultrafast_spec data i table htab
      simp only
      by_cases hm : (find_match_ultrafast data i table).1 ≥ 4
      · rw [if_pos hm]
        obtain ⟨h64, hma⟩ := hmatch hm
        rw [emitSegments_single _ _ _ _ (by omega) (by omega)]
        simp only
        have hPlen : (P ++ lit).length = i := by
          rw [← htake, List.length_take]; omega
        have hem2 := (hem.flush lit (by omega)).matchBlock
          (find_match_ultrafast data i table).1 (find_match_ultrafast data i table).2.1
          (by omega) (by omega) hma.2.1 hma.2.2.1 (by rw [hPlen]; exact hma.2.2.2.1)
        rw [← htake, hma.matchBytes_eq] at hem2
        exact ih _ [] _ _ _ (by omega) hma.1 (by decide) (by simp) hem2
          (htab2.mono (by omega))
      · rw [if_neg hm]
        have htake2 : data.take (i + 1) = P ++ (lit ++ [byteAt data i]) := by
          rw [take_succ_byteAt data i hlt, htake, List.append_assoc]
        by_cases h127 : (lit ++ [byteAt data i]).length = 127
        · rw [if_pos h127]
          have hem2 := hem.flush (lit ++ [byteAt data i]) (by omega)
          rw [← htake2] at hem2
          exact ih _ [] _ _ _ (by omega) (by omega) (by decide) (by simp) hem2 htab2
        · rw [if_neg h127]
          have hl : (lit ++ [byteAt data i]).length < 127 := by
            simp only [List.length_append, List.length_singleton] at h127 ⊢
            omega
          exact ih _ _ _ _ _ (by omega) (by omega) hl htake2 hem htab2
    · rw [if_neg hlt]
      refine ⟨_, rfl, ?_⟩
      have hem2 := hem.flush lit (by omega)
      rw [← htake, List.take_of_length_le (by omega)] at hem2
      exact hem2

/-- C2 (round trip of the fast encoder): for every buffer `B`, `compress_fast` returns a
stream `C` and `decompress C` returns exactly `B`. -/
theorem C2_compress_fast_round_trip (B : List Nat) :
    ∃ C, compress_fast B = .returns C ∧ decompress C = .returns B := by
  obtain ⟨C, hC, hem⟩ := compressFastLoop_correct B (B.length + 1) 0 [] [] HashTable.empty []
    (by omega) (Nat.zero_le _) (by decide) (by simp) Emits.nil (TableBelow.empty 0)
  exact ⟨C, hC, hem.decompress⟩

/-! ### Chunking invariance of the streaming encoder -/

theorem flush_literals_append (pre out lit : List Nat) :
    pre ++ flush_literals out lit = flush_literals (pre ++ out) lit := by
  unfold flush_literals
  split <;> simp

theorem byteAt_append_right (D0 data : List Nat) (x : Nat) :
    byteAt (D0 ++ data) (D0.length + x) = byteAt data x := by
  simp [byteAt, List.getD_eq_getElem?_getD, List.getElem?_append_right]

theorem MatchAt.shift {data : List Nat} {pos mlen dist : Nat} (h : MatchAt data pos mlen dist)
    (D0 : List Nat) : MatchAt (D0 ++ data) (D0.length + pos) mlen dist := by
  obtain ⟨h1, h2, h3, h4, h5⟩ := h
  refine ⟨by simp only [List.length_append]; omega, h2, h3, by omega, ?_⟩
  intro j hj
  have e1 : D0.length + pos - dist + j = D0.length + (pos - dist + j) := by omega
  have e2 : D0.length + pos + j = D0.length + (pos + j) := by omega
  rw [e1, e2, byteAt_append_right, byteAt_append_right]
  exact h5 j hj

theorem take_append_length_add (D0 data : List Nat) (k : Nat) :
    (D0 ++ data).take (D0.length + k) = D0 ++ data.take k := by
  rw [List.take_append_eq_append_take]
  have e1 : D0.length + k - D0.length = k := by omega
  rw [e1, List.take_of_length_le (by omega)]

theorem scanCandidates_spec (data : List Nat) (pos max_len lo : Nat) :
    ∀ (n s2 best_len best_dist : Nat), lo ≤ s2 → (n = 0 ∨ s2 + n + 2 ≤ pos) →
      (3 ≤ best_len → best_len ≤ max_len ∧ 3 ≤ best_dist ∧ best_dist ≤ pos - lo
        ∧ ∀ j, j < best_len → byteAt data (pos - best_dist + j) = byteAt data (pos + j)) →
      3 ≤ (scanCandidates data pos max_len n s2 best_len best_dist).1 →
        (scanCandidates data pos max_len n s2 best_len best_dist).1 ≤ max_len
          ∧ 3 ≤ (scanCandidates data pos max_len n s2 best_len best_dist).2
          ∧ (scanCandidates data pos max_len n s2 best_len best_dist).2 ≤ pos - lo
          ∧ ∀ j, j < (scanCandidates data pos max_len n s2 best_len best_dist).1 →
              byteAt data (pos - (scanCandidates data pos max_len n s2 best_len best_dist).2 + j)
                = byteAt data (pos + j) := by
  intro n
  induction n with
  | zero => intro s2 bl bd _ _ hbest; exact hbest
  | succ n ih =>
    intro s2 bl bd hlo hn hbest
    have hs2 : s2 + n + 3 ≤ pos := by omega
    obtain ⟨_, e2, e3⟩ := extendMatch_spec data s2 pos max_len 0 (fun j hj => absurd hj (by omega))
    have hcand : 3 ≤ extendMatch data s2 pos max_len 0 →
        extendMatch data s2 pos max_len 0 ≤ max_len ∧ 3 ≤ pos - s2 ∧ pos - s2 ≤ pos - lo
          ∧ ∀ j, j < extendMatch data s2 pos max_len 0 →
              byteAt data (pos - (pos - s2) + j) = byteAt data (pos + j) := by
      intro _
      refine ⟨by omega, by omega, by omega, ?_⟩
      intro j hj
      have : pos - (pos - s2) = s2 := by omega
      rw [this]
      exact e3 j hj
    rw [scanCandidates]
    split
    · next hm =>
      split
      · exact fun _ => hcand hm.1
      · exact ih (s2 + 1) _ _ (by omega) (by omega) hcand
    · exact ih (s2 + 1) _ _ (by omega) (by omega) hbest

theorem find_match_spec (data : List Nat) (pos : Nat) (hpos : pos < data.length)
    (h3 : 3 ≤ (find_match data pos).1) :
    (find_match data pos).1 ≤ 130
      ∧ MatchAt data pos (find_match data pos).1 (find_match data pos).2 := by
  unfold find_match at h3 ⊢
  simp only at h3 ⊢
  have hn : (pos + 1 - ((if pos > 4096 then pos - 4096 else 0) + 3) = 0)
      ∨ (if pos > 4096 then pos - 4096 else 0)
          + (pos + 1 - ((if pos > 4096 then pos - 4096 else 0) + 3)) + 2 ≤ pos := by
    split <;> omega
  obtain ⟨e1, e2, e3, e4⟩ := scanCandidates_spec data pos (min (data.length - pos) 130)
    (if pos > 4096 then pos - 4096 else 0) _ _ 0 0 (Nat.le_refl _) hn
    (fun h => absurd h (by omega)) h3
  have hwin : pos - (if pos > 4096 then pos - 4096 else 0) ≤ 4096 ∧
      pos - (if pos > 4096 then pos - 4096 else 0) ≤ pos := by
    split <;> omega
  exact ⟨by omega, by omega, by omega, by omega, by omega, e4⟩

theorem encoderChunkLoop_correct (D0 data pre : List Nat) :
    ∀ (fuel i : Nat) (lit out P : List Nat),
      data.length - i < fuel → i ≤ data.length → lit.length < 127 →
      D0 ++ data.take i = P ++ lit → Emits (pre ++ out) P →
      ∃ out2 lit2 P2, encoderChunkLoop data fuel i lit out = .returns (out2, lit2)
        ∧ Emits (pre ++ out2) P2 ∧ D0 ++ data = P2 ++ lit2 ∧ lit2.length < 127 := by
  intro fuel
  induction fuel with
  | zero => intro i lit out P hf; omega
  | succ fuel ih =>
    intro i lit out P hf hi hlit htake hem
    rw [encoderChunkLoop]
    by_cases hlt : i < data.length
    · rw [if_pos hlt]
      simp only
      by_cases hm : (find_match data i).1 ≥ 3
      · rw [if_pos hm]
        obtain ⟨h130, hma⟩ := find_match_spec data i hlt hm
        have hmin : min (find_match data i).1 130 = (find_match data i).1 := by omega
        rw [hmin]
        have hPlen : (P ++ lit).length = D0.length + i := by
          rw [← htake, List.length_append, List.length_take]; omega
        have hem2 := (hem.flush lit (by omega)).matchBlock
          (find_match data i).1 (find_match data i).2
          (by omega) h130 hma.2.1 hma.2.2.1 (by rw [hPlen]; have := hma.2.2.2.1; omega)
        rw [← htake, ← take_append_length_add, (hma.shift D0).matchBytes_eq,
          Nat.add_assoc, take_append_length_add, ← flush_literals_append,
          List.append_assoc] at hem2
        exact ih _ [] _ _ (by omega) hma.1 (by decide) (by simp) hem2
      · rw [if_neg hm]
        have htake2 : D0 ++ data.take (i + 1) = P ++ (lit ++ [byteAt data i]) := by
          rw [take_succ_byteAt data i hlt, ← List.append_assoc, htake, List.append_assoc]
        by_cases h127 : (lit ++ [byteAt data i]).length = 127
        · rw [if_pos h127]
          have hem2 := hem.flush (lit ++ [byteAt data i]) (by omega)
          rw [← htake2, ← flush_literals_append] at hem2
          exact ih _ [] _ _ (by omega) (by omega) (by decide) (by simp) hem2
        · rw [if_neg h127]
          have hl : (lit ++ [byteAt data i]).length < 127 := by
            simp only [List.length_append, List.length_singleton] at h127 ⊢
            omega
          exact ih _ _ _ _ (by omega) (by omega) hl htake2 hem
    · rw [if_neg hlt]
      refine ⟨out, lit, P, rfl, hem, ?_, hlit⟩
      rw [← htake, List.take_of_length_le (by omega)]

theorem feedChunks_correct (chunks : List (List Nat)) :
    ∀ (s : EncoderState) (pre P D0 : List Nat), s.lit.length < 127 → D0 = P ++ s.lit →
      Emits pre P →
      ∃ outs s2 P2, feedChunks s chunks = .returns (outs, s2) ∧ Emits (pre ++ outs) P2
        ∧ D0 ++ chunks.flatten = P2 ++ s2.lit ∧ s2.lit.length < 127 := by
  induction chunks with
  | nil =>
    intro s pre P D0 hlit hD hem
    exact ⟨[], s, P, rfl, by simpa using hem, by simpa using hD, hlit⟩
  | cons c cs ih =>
    intro s pre P D0 hlit hD hem
    obtain ⟨out1, lit1, P1, hrun, hem1, hD1, hlit1⟩ :=
      encoderChunkLoop_correct D0 c pre (c.length + 1) 0 s.lit [] P (by omega)
        (Nat.zero_le _) hlit (by simpa using hD) (by simpa using hem)
    obtain ⟨outs, s2, P2, hrun2, hem2, hD2, hlit2⟩ :=
      ih { lit := lit1 } (pre ++ out1) P1 (D0 ++ c) hlit1 hD1 hem1
    refine ⟨out1 ++ outs, s2, P2, ?_, ?_, ?_, hlit2⟩
    · simp only [feedChunks, encoder_chunk, hrun, Outcome.bind, hrun2]
    · rw [← List.append_assoc]; exact hem2
    · rw [List.flatten_cons, ← List.append_assoc]; exact hD2

/-- C3 (chunking invariance): for every list of chunks (any number, empty ones allowed),
a streaming session started with `encoder_init` returns buffers whose concatenation the
decoder turns back into exactly the concatenation of the chunks. -/
theorem C3_chunking_invariance (s0 : EncoderState) (chunks : List (List Nat)) :
    ∃ C, encodeStream s0 chunks = .returns C ∧ decompress C = .returns chunks.flatten := by
  obtain ⟨outs, s2, P2, hrun, hem, hD, hlit⟩ :=
    feedChunks_correct chunks (encoder_init s0) [] [] [] (by simp [encoder_init]) rfl
      Emits.nil
  refine ⟨outs ++ (encoder_end s2).1, ?_, ?_⟩
  · simp only [encodeStream, hrun, Outcome.bind]
  · have hem2 := hem.flush s2.lit (by omega)
    rw [List.nil_append, ← hD, List.nil_append] at hem2
    have e := flush_literals_append outs [] s2.lit
    rw [List.append_nil] at e
    show decompress (outs ++ flush_literals [] s2.lit) = _
    rw [e]
    exact hem2.decompress

/-! ### Claims about the round trips of the whole-buffer variants -/

/-- C1 (round trip of the thorough encoder) fails on the code: `compress` writes a match
longer than 130 bytes as an extended block (`0xFF`, length, distance), which `decompress`
reads as a short match of length 130 whose distance is the length field. On 300 equal
bytes the decoder then reads its output out of bounds; on a 140-byte run written twice
it returns 270 bytes instead of 280. -/
theorem C1_compress_round_trip_fails_on_long_match :
    compress (List.replicate 300 97) = .returns [1, 97, 0xFF, 2, 1, 1, 0, 166, 2, 1]
      ∧ decompress [1, 97, 0xFF, 2, 1, 1, 0, 166, 2, 1] = .undefinedBehaviour
      ∧ (compress (List.range 140 ++ List.range 140)).bind decompress
          = .returns (List.range 140 ++ List.range 130) := by
  refine ⟨by set_option maxRecDepth 1000000 in decide!, by decide, ?_⟩
  have hc : compress (List.range 140 ++ List.range 140)
      = .returns ((List.range 127).length :: (List.range 127
          ++ ((List.range' 127 13).length :: (List.range' 127 13
            ++ [0xFF, 140, 0, 140, 0])))) := by
    set_option maxRecDepth 1000000 in decide!
  rw [hc]
  simp only [Outcome.bind]
  rw [decompress_eq_decodeFrom, decodeFrom_literal_block _ _ _ (by simp),
    decodeFrom_literal_block _ _ _ (by simp),
    decodeFrom_match 0xFF 140 0 [140, 0] _ (by decide) (by decide) (by simp),
    decodeFrom_match_truncated 140 [0] _ (by decide) (by decide)]
  refine congrArg Outcome.returns ?_
  set_option maxRecDepth 1000000 in decide!

/-- C4 (JSON round trip) fails on the code for a string with a two-byte UTF-8 character:
`preprocess` leaves the continuation byte `0xA9` of "é" as it is (the byte before it is
not a continuation byte), and `postprocess` takes every byte in `[0x80, 0xC0)` for a
delta and adds the previous input byte to it. The input has no whitespace. -/
theorem C4_json_round_trip_fails_on_utf8 :
    JsonPreprocessor.preprocess [0x22, 0xC3, 0xA9, 0x22] = [0xF6, 0xC3, 0xA9, 0xF6]
      ∧ JsonPreprocessor.postprocess [0xF6, 0xC3, 0xA9, 0xF6] = [0x22, 0xC3, 0xEC, 0x22] := by
  decide!

/-- C5 (UTF-8 round trip) fails on the code: applying `delta_encode` a second time does
not undo it. On the three bytes of "€" the result is `E2 82 A8` instead of `E2 82 AC`. -/
theorem C5_utf8_round_trip_fails :
    Utf8Transformer.delta_encode [] [0xE2, 0x82, 0xAC] = [0xE2, 0x82, 0xAA]
      ∧ compress_utf8 [0xE2, 0x82, 0xAC] = .returns [3, 0xE2, 0x82, 0xAA]
      ∧ decompress_utf8 [3, 0xE2, 0x82, 0xAA] = .returns [0xE2, 0x82, 0xA8] := by
  decide

/-- C6 (advanced round trip) fails on the code: on the JSON string "é" (no whitespace)
`decompress_advanced` after `compress_advanced` returns `22 C3 EC 22` instead of
`22 C3 A9 22`. -/
theorem C6_advanced_round_trip_fails :
    compress_advanced [0x22, 0xC3, 0xA9, 0x22] = .returns [4, 0xF6, 0xC3, 0xA9, 0xF6]
      ∧ decompress_advanced [4, 0xF6, 0xC3, 0xA9, 0xF6]
          = .returns [0x22, 0xC3, 0xEC, 0x22] := by
  decide!

/-! ### Empty input, protocol, and the JSON scanner at concrete inputs -/

/-- C15 (empty input): every whole-buffer function returns the empty buffer on the empty
buffer; `encoder_end` right after `encoder_init` returns the empty buffer, and so does
`encoder_chunk` on an empty chunk in a fresh state, which it leaves unchanged. -/
theorem C15_empty_input :
    compress [] = .returns [] ∧ compress_fast [] = .returns []
      ∧ compress_json [] = .returns [] ∧ compress_utf8 [] = .returns []
      ∧ compress_advanced [] = .returns []
      ∧ decompress [] = .returns [] ∧ decompress_json [] = .returns []
      ∧ decompress_utf8 [] = .returns [] ∧ decompress_advanced [] = .returns []
      ∧ (∀ s0, (encoder_end (encoder_init s0)).1 = [])
      ∧ (∀ s0, encoder_chunk (encoder_init s0) [] = .returns ([], encoder_init s0)) := by
  have hp : JsonPreprocessor.preprocess [] = [] := by
    simp [JsonPreprocessor.preprocess, JsonPreprocessor.preprocessLoop]
  refine ⟨rfl, rfl, ?_, rfl, ?_, rfl, rfl, rfl, rfl, fun _ => rfl, fun _ => rfl⟩
  · simp only [compress_json, hp]; rfl
  · simp only [compress_advanced, hp]; rfl

/-- C12 as the spec states it fails on the code: after `encoder_end`, a call of
`encoder_chunk` is not rejected; it returns an (empty) output buffer and takes the byte
into the pending literal buffer. -/
theorem C12_chunk_after_end_is_accepted :
    encoder_chunk (encoder_end { lit := [1, 2] }).2 [7] = .returns ([], { lit := [7] }) := by
  decide

/-- C12 (amended): `EncoderState` holds nothing but the pending literal bytes, so
`encoder_end` leaves the state that `encoder_init` produces, and a later `encoder_chunk`
with any bytes returns an output buffer and a new state, the same as that call on a
freshly initialised encoder. -/
theorem C12_chunk_after_end_behaves_as_fresh (s s0 : EncoderState) (data : List Nat) :
    (encoder_end s).2 = encoder_init s0
      ∧ ∃ out s2, encoder_chunk (encoder_end s).2 data = .returns (out, s2)
          ∧ encoder_chunk (encoder_init s0) data = .returns (out, s2) := by
  refine ⟨rfl, ?_⟩
  obtain ⟨out, lit, _, hrun, _⟩ :=
    encoderChunkLoop_correct [] data [] (data.length + 1) 0 [] [] [] (by omega)
      (Nat.zero_le _) (by decide) (by simp) (by simpa using Emits.nil)
  refine ⟨out, { lit := lit }, ?_, ?_⟩
  · simp only [encoder_chunk, encoder_end, hrun]
  · simp only [encoder_chunk, encoder_init, hrun]

/-- C16 (escaped quote) fails on the code: the in-string test compares the byte with the
two-character constant `'\\"'`, which no byte equals, so the branch never runs. On
`"a\" b"` the backslash is copied as an ordinary byte, the quote after it closes the
string (token `0xF6`), and the space that follows is dropped as whitespace. -/
theorem C16_escaped_quote_closes_string :
    JsonPreprocessor.preprocess [0x22, 0x61, 0x5C, 0x22, 0x20, 0x62, 0x22]
      = [0xF6, 0x61, 0x5C, 0xF6, 0x62, 0xF6] := by
  decide!

/-- C18 (postprocess delta) fails on the code: the delta is added to the previous input
byte `data[i - 1]`, not to the last output byte. After the token `0xF7` (output "true")
the byte `0x81` becomes `0xF7 + 1 = 0xF8`, not `'e' + 1 = 0x66`; after a delta-coded byte
(`41 81 81`) the third byte becomes `0x81 + 1 = 0x82`, not `0x42 + 1 = 0x43`. -/
theorem C18_postprocess_adds_previous_input_byte :
    JsonPreprocessor.postprocess [0xF7, 0x81] = [0x74, 0x72, 0x75, 0x65, 0xF8]
      ∧ JsonPreprocessor.postprocess [0x41, 0x81, 0x81] = [0x41, 0x42, 0x82] := by
  decide

/-! ### The thorough match finder -/

theorem extendMatch_maximal (data : List Nat) (cand pos : Nat) :
    ∀ room mlen, extendMatch data cand pos room mlen = mlen + room
      ∨ byteAt data (cand + extendMatch data cand pos room mlen)
          ≠ byteAt data (pos + extendMatch data cand pos room mlen) := by
  intro room
  induction room with
  | zero => intro mlen; exact Or.inl rfl
  | succ room ih =>
    intro mlen
    rw [extendMatch]
    split
    · rcases ih (mlen + 1) with h | h
      · exact Or.inl (by omega)
      · exact Or.inr h
    · next hne => exact Or.inr hne

theorem find_match_fast_maximal (data : List Nat) (pos : Nat) (table : HashTable)
    (ht : TableBelow table pos) (h4 : 4 ≤ (find_match_fast data pos table).1) :
    (find_match_fast data pos table).1 ≤ min (data.length - pos) 258
      ∧ ((find_match_fast data pos table).1 = min (data.length - pos) 258
        ∨ byteAt data (pos - (find_match_fast data pos table).2.1
              + (find_match_fast data pos table).1)
            ≠ byteAt data (pos + (find_match_fast data pos table).1)) := by
  unfold find_match_fast at h4 ⊢
  split at h4
  · simp at h4
  · next hlen =>
    rw [if_neg hlen]
    simp only at h4 ⊢
    cases hc : table (hash4 data pos) with
    | none => rw [hc] at h4; simp at h4
    | some cand =>
      have hcand := ht _ _ hc
      rw [hc] at h4
      simp only at h4 ⊢
      split at h4
      · next hd =>
        rw [if_pos hd]
        split at h4
        · next heq =>
          rw [if_pos heq]
          simp only
          obtain ⟨h0, h1, h2, h3⟩ := heq
          have hm := matchAt_of_candidate data pos cand 258 hcand (by omega) (by decide) hd
            h0 h1 h2 h3
          have hsub : pos - (pos - cand) = cand := by omega
          refine ⟨hm.2.1, ?_⟩
          rcases extendMatch_maximal data cand pos (min (data.length - pos) 258 - 4) 4
            with h | h
          · exact Or.inl (by omega)
          · exact Or.inr (by rw [hsub]; exact h)
        · simp at h4
      · simp at h4

/-- C20 (thorough match finder): for every buffer, position and table whose entries are
earlier positions, `find_match_fast` returns length 0, or a length `L` with
`4 ≤ L ≤ min(len - pos, 258)` and a distance `d` with `1 ≤ d ≤ 65535`, `d ≤ pos` such that
`data[pos - d + k] = data[pos + k]` for all `k < L` (all reads inside the buffer), and `L`
is maximal for that candidate: `L = min(len - pos, 258)` or
`data[pos - d + L] ≠ data[pos + L]`. -/
theorem C20_find_match_fast_result (data : List Nat) (pos : Nat) (table : HashTable)
    (ht : TableBelow table pos) :
    (find_match_fast data pos table).1 = 0
      ∨ (4 ≤ (find_match_fast data pos table).1
        ∧ (find_match_fast data pos table).1 ≤ min (data.length - pos) 258
        ∧ pos + (find_match_fast data pos table).1 ≤ data.length
        ∧ 1 ≤ (find_match_fast data pos table).2.1
        ∧ (find_match_fast data pos table).2.1 ≤ 65535
        ∧ (find_match_fast data pos table).2.1 ≤ pos
        ∧ (∀ k, k < (find_match_fast data pos table).1 →
            byteAt data (pos - (find_match_fast data pos table).2.1 + k)
              = byteAt data (pos + k))
        ∧ ((find_match_fast data pos table).1 = min (data.length - pos) 258
          ∨ byteAt data (pos - (find_match_fast data pos table).2.1
                + (find_match_fast data pos table).1)
              ≠ byteAt data (pos + (find_match_fast data pos table).1))) := by
  by_cases h4 : 4 ≤ (find_match_fast data pos table).1
  · right
    obtain ⟨_, hma⟩ := (find_match_fast_spec data pos table ht).2 h4
    obtain ⟨hle, hmax⟩ := find_match_fast_maximal data pos table ht h4
    exact ⟨h4, hle, hma.1, hma.2.1, hma.2.2.1, hma.2.2.2.1, hma.2.2.2.2, hmax⟩
  · left
    have hlt : (find_match_fast data pos table).1 < 4 := by omega
    unfold find_match_fast at hlt ⊢
    split
    · rfl
    · next hlen =>
      rw [if_neg hlen] at hlt
      simp only at hlt ⊢
      cases hc : table (hash4 data pos) with
      | none => rfl
      | some cand =>
        have hcand := ht _ _ hc
        rw [hc] at hlt
        simp only at hlt ⊢
        split
        · next hd =>
          rw [if_pos hd] at hlt
          split
          · next heq =>
            rw [if_pos heq] at hlt
            simp only at hlt
            obtain ⟨h0, h1, h2, h3⟩ := heq
            have hm := matchAt_of_candidate data pos cand 258 hcand (by omega) (by decide) hd
              h0 h1 h2 h3
            omega
          · rfl
        · rfl

/-- Witness for C20: in `1 2 3 4 1 2 3 4 5` at position 4, with the table pointing at
position 0, a match is found: its length is between 4 and 5 and its distance at most 4. -/
theorem C20_find_match_fast_result_witness :
    4 ≤ (find_match_fast [1, 2, 3, 4, 1, 2, 3, 4, 5] 4
        (HashTable.empty.set (hash4 [1, 2, 3, 4, 1, 2, 3, 4, 5] 0) 0)).1
      ∧ (find_match_fast [1, 2, 3, 4, 1, 2, 3, 4, 5] 4
        (HashTable.empty.set (hash4 [1, 2, 3, 4, 1, 2, 3, 4, 5] 0) 0)).1
          ≤ min ([1, 2, 3, 4, 1, 2, 3, 4, 5].length - 4) 258
      ∧ (find_match_fast [1, 2, 3, 4, 1, 2, 3, 4, 5] 4
        (HashTable.empty.set (hash4 [1, 2, 3, 4, 1, 2, 3, 4, 5] 0) 0)).2.1 ≤ 4 :=
  have ht : TableBelow (HashTable.empty.set (hash4 [1, 2, 3, 4, 1, 2, 3, 4, 5] 0) 0) 4 :=
    ((TableBelow.empty 0).set _).mono (by decide)
  match C20_find_match_fast_result [1, 2, 3, 4, 1, 2, 3, 4, 5] 4 _ ht with
  | .inl h0 => absurd h0 (by decide)
  | .inr hr => ⟨hr.1, hr.2.1, hr.2.2.2.2.2.1⟩

/-! ### The UTF-8 delta transform -/

theorem deltaLoop_eq_zipWith (rest : List Nat) :
    ∀ (prev : Nat) (out : List Nat),
      Utf8Transformer.deltaLoop prev rest out
        = out ++ List.zipWith
            (fun c p => if c &&& 0xC0 = 0x80 ∧ p &&& 0xC0 = 0x80
              then ((c + 256 - p) % 256 + 128) % 256 else c)
            rest (prev :: rest) := by
  induction rest with
  | nil => intro prev out; simp [Utf8Transformer.deltaLoop]
  | cons c r ih =>
    intro prev out
    rw [Utf8Transformer.deltaLoop]
    split
    · next h => rw [ih]; simp [h]
    · next h => rw [ih]; simp [h]

theorem byteAt_eq_of_getElem? {l : List Nat} {i v : Nat} (h : l[i]? = some v) :
    byteAt l i = v := by
  simp [byteAt, List.getD_eq_getElem?_getD, h]

theorem getElem?_eq_byteAt (l : List Nat) (i : Nat) (h : i < l.length) :
    l[i]? = some (byteAt l i) := by
  simp [byteAt, List.getD_eq_getElem?_getD, List.getElem?_eq_getElem h]

/-- C19 (`delta_encode` is its reference definition): for a byte buffer `x` the output
has the length of `x`, its first byte is `x[0]`, and for `i ≥ 1` its byte `i` is
`(x[i] - x[i-1] + 128) mod 256` when both `x[i]` and `x[i-1]` have top bits `10`, and
`x[i]` otherwise; the difference is taken against the original previous byte. -/
theorem C19_delta_encode_reference (x : List Nat) (hx : ∀ b ∈ x, b < 256) :
    (Utf8Transformer.delta_encode [] x).length = x.length
      ∧ (Utf8Transformer.delta_encode [] x)[0]? = x[0]?
      ∧ ∀ i, 1 ≤ i → i < x.length →
          if byteAt x i &&& 0xC0 = 0x80 ∧ byteAt x (i - 1) &&& 0xC0 = 0x80 then
            ((byteAt (Utf8Transformer.delta_encode [] x) i : Nat) : Int)
              = ((byteAt x i : Int) - (byteAt x (i - 1) : Int) + 128) % 256
          else byteAt (Utf8Transformer.delta_encode [] x) i = byteAt x i := by
  cases x with
  | nil => exact ⟨rfl, rfl, fun i _ hi => absurd hi (by simp)⟩
  | cons a r =>
    have hrun : Utf8Transformer.delta_encode [] (a :: r)
        = a :: List.zipWith
            (fun c p => if c &&& 0xC0 = 0x80 ∧ p &&& 0xC0 = 0x80
              then ((c + 256 - p) % 256 + 128) % 256 else c)
            r (a :: r) := by
      simp [Utf8Transformer.delta_encode, deltaLoop_eq_zipWith]
    rw [hrun]
    refine ⟨by simp, by simp, ?_⟩
    intro i hi1 hilen
    obtain ⟨j, rfl⟩ : ∃ j, i = j + 1 := ⟨i - 1, by omega⟩
    simp only [List.length_cons] at hilen
    have hj : j < r.length := by omega
    have hc : r[j]? = some (byteAt (a :: r) (j + 1)) := by
      rw [getElem?_eq_byteAt r j hj]
      simp [byteAt]
    have hp : (a :: r)[j]? = some (byteAt (a :: r) (j + 1 - 1)) := by
      rw [Nat.add_sub_cancel]
      exact getElem?_eq_byteAt (a :: r) j (by simp only [List.length_cons]; omega)
    have hout : byteAt (a :: List.zipWith
          (fun c p => if c &&& 0xC0 = 0x80 ∧ p &&& 0xC0 = 0x80
            then ((c + 256 - p) % 256 + 128) % 256 else c) r (a :: r)) (j + 1)
        = (if byteAt (a :: r) (j + 1) &&& 0xC0 = 0x80
              ∧ byteAt (a :: r) (j + 1 - 1) &&& 0xC0 = 0x80
            then ((byteAt (a :: r) (j + 1) + 256 - byteAt (a :: r) (j + 1 - 1)) % 256 + 128)
              % 256
            else byteAt (a :: r) (j + 1)) := by
      apply byteAt_eq_of_getElem?
      rw [List.getElem?_cons_succ, List.getElem?_zipWith_eq_some]
      exact ⟨_, _, hc, hp, rfl⟩
    have hbc : byteAt (a :: r) (j + 1) < 256 := by
      have hmem : byteAt (a :: r) (j + 1) ∈ (a :: r) := by
        have := getElem?_eq_byteAt (a :: r) (j + 1) (by simp only [List.length_cons]; omega)
        exact List.getElem?_mem this
      exact hx _ hmem
    have hbp : byteAt (a :: r) (j + 1 - 1) < 256 := by
      have hmem : byteAt (a :: r) (j + 1 - 1) ∈ (a :: r) := List.getElem?_mem hp
      exact hx _ hmem
    rw [hout]
    split
    · omega
    · rfl

/-- Witness for C19 on the three bytes of the euro sign. -/
theorem C19_delta_encode_reference_witness :
    (Utf8Transformer.delta_encode [] [0xE2, 0x82, 0xAC]).length = 3
      ∧ ((byteAt (Utf8Transformer.delta_encode [] [0xE2, 0x82, 0xAC]) 2 : Nat) : Int)
          = ((0xAC : Int) - 0x82 + 128) % 256 :=
  have h := C19_delta_encode_reference [0xE2, 0x82, 0xAC] (by decide)
  ⟨h.1, by simpa [byteAt] using h.2.2 2 (by decide) (by decide)⟩

/-! ### The pending literal buffer of the streaming encoder -/

theorem encoderChunkLoop_succ (data : List Nat) (fuel i : Nat) (lit out : List Nat) :
    encoderChunkLoop data (fuel + 1) i lit out
      = if i < data.length then
          encoderChunkLoop data fuel (encoderChunkBody data i lit out).1
            (encoderChunkBody data i lit out).2.1 (encoderChunkBody data i lit out).2.2
        else .returns (out, lit) := by
  rw [encoderChunkLoop]
  unfold encoderChunkBody
  split
  · simp only
    split
    · rfl
    · split <;> rfl
  · rfl

theorem encoderChunkBody_lit_length (data : List Nat) (i : Nat) (lit out : List Nat)
    (h : lit.length ≤ 126) : (encoderChunkBody data i lit out).2.1.length ≤ 126 := by
  unfold encoderChunkBody
  simp only
  split
  · simp
  · split
    · simp
    · next h127 =>
      simp only [List.length_append, List.length_singleton] at h127 ⊢
      omega

theorem ChunkLoopState.lit_length {data lit0 : List Nat} {i : Nat} {lit out : List Nat}
    (h : ChunkLoopState data lit0 i lit out) (h0 : lit0.length ≤ 126) :
    lit.length ≤ 126 := by
  induction h with
  | start => exact h0
  | step _ _ ih => exact encoderChunkBody_lit_length _ _ _ _ ih

theorem encoderChunkLoop_reaches (data lit0 : List Nat) :
    ∀ (fuel i : Nat) (lit out : List Nat) (r : List Nat × List Nat),
      ChunkLoopState data lit0 i lit out →
      encoderChunkLoop data fuel i lit out = .returns r →
      ∃ i2, data.length ≤ i2 ∧ ChunkLoopState data lit0 i2 r.2 r.1 := by
  intro fuel
  induction fuel with
  | zero => intro i lit out r _ h; simp [encoderChunkLoop] at h
  | succ fuel ih =>
    intro i lit out r hst h
    rw [encoderChunkLoop_succ] at h
    split at h
    · next hlt => exact ih _ _ _ r (hst.step hlt) h
    · next hge =>
      cases h
      exact ⟨i, by omega, hst⟩

/-- C13 (pending-literal bound): after `encoder_init` and any sequence of
`encoder_chunk` calls the session is in a state whose pending literal buffer holds at
most 126 bytes; `encoder_end` leaves it empty; and during any further call, at every
head of the loop the buffer holds at most 126 bytes, so that right after the
`push_back` of the literal branch it holds at most 127 (at 127 it is flushed). -/
theorem C13_pending_literal_bound (s0 : EncoderState) (chunks : List (List Nat)) :
    ∃ outs s, feedChunks (encoder_init s0) chunks = .returns (outs, s)
      ∧ s.lit.length ≤ 126
      ∧ (encoder_end s).2.lit = []
      ∧ ∀ data i lit out, ChunkLoopState data s.lit i lit out →
          lit.length ≤ 126 ∧ (lit ++ [byteAt data i]).length ≤ 127 := by
  obtain ⟨outs, s, _, hrun, _, _, hlit⟩ :=
    feedChunks_correct chunks (encoder_init s0) [] [] [] (by simp [encoder_init]) rfl
      Emits.nil
  refine ⟨outs, s, hrun, by omega, rfl, ?_⟩
  intro data i lit out hst
  have := hst.lit_length (by omega)
  exact ⟨this, by simp only [List.length_append, List.length_singleton]; omega⟩

/-! ### The scanner of the JSON preprocessor -/

theorem preprocessLoop_cons (c : Nat) (rest : List Nat) (in_string : Bool) (last_char : Nat)
    (output : List Nat) :
    JsonPreprocessor.preprocessLoop (c :: rest) in_string last_char output
      = JsonPreprocessor.preprocessLoop
          (rest.drop (JsonPreprocessor.preprocessStep c rest in_string last_char).1)
          (JsonPreprocessor.preprocessStep c rest in_string last_char).2.1
          (JsonPreprocessor.preprocessStep c rest in_string last_char).2.2.1
          (output ++ (JsonPreprocessor.preprocessStep c rest in_string last_char).2.2.2) := by
  cases in_string
  · rw [JsonPreprocessor.preprocessLoop]
    unfold JsonPreprocessor.preprocessStep
    simp only [Bool.false_eq_true, if_false]
    by_cases h0 : c = 0x7B
    · simp only [if_pos h0]
      rfl
    simp only [if_neg h0]
    by_cases h1 : c = 0x7D
    · simp only [if_pos h1]
      rfl
    simp only [if_neg h1]
    by_cases h2 : c = 0x5B
    · simp only [if_pos h2]
      rfl
    simp only [if_neg h2]
    by_cases h3 : c = 0x5D
    · simp only [if_pos h3]
      rfl
    simp only [if_neg h3]
    by_cases h4 : c = 0x3A
    · simp only [if_pos h4]
      rfl
    simp only [if_neg h4]
    by_cases h5 : c = 0x2C
    · simp only [if_pos h5]
      rfl
    simp only [if_neg h5]
    by_cases h6 : c = 0x22
    · simp only [if_pos h6]
      rfl
    simp only [if_neg h6]
    by_cases h7 : c = 0x20 ∨ c = 0x09 ∨ c = 0x0A ∨ c = 0x0D
    · simp only [if_pos h7, List.drop_zero, List.append_nil]
    simp only [if_neg h7]
    by_cases h8 : c = 0x74 ∧ rest.take 3 = [0x72, 0x75, 0x65]
    · simp only [if_pos h8]
    simp only [if_neg h8]
    by_cases h9 : c = 0x66 ∧ rest.take 4 = [0x61, 0x6C, 0x73, 0x65]
    · simp only [if_pos h9]
    simp only [if_neg h9]
    by_cases h10 : c = 0x6E ∧ rest.take 3 = [0x75, 0x6C, 0x6C]
    · simp only [if_pos h10]
    simp only [if_neg h10]
    rfl
  · rw [JsonPreprocessor.preprocessLoop]
    unfold JsonPreprocessor.preprocessStep
    simp only [if_true]
    by_cases h0 : c = escapedQuoteLiteral ∧ rest.head? = some 0x22
    · simp only [if_pos h0]
    simp only [if_neg h0]
    by_cases h1 : c = 0x22
    · simp only [if_pos h1]
      rfl
    simp only [if_neg h1]
    by_cases h2 : last_char ≠ 0 ∧ c &&& 0xC0 = 0x80 ∧ last_char &&& 0xC0 = 0x80
    · simp only [if_pos h2]
      rfl
    simp only [if_neg h2]
    rfl

theorem scannerAt_zero (data : List Nat) (in_string : Bool) (last_char : Nat)
    (output : List Nat) :
    JsonPreprocessor.scannerAt data in_string last_char output 0
      = some (in_string, last_char, output) := by
  rw [JsonPreprocessor.scannerAt]

theorem scannerAt_nil_succ (in_string : Bool) (last_char : Nat) (output : List Nat) (p : Nat) :
    JsonPreprocessor.scannerAt [] in_string last_char output (p + 1) = none := by
  rw [JsonPreprocessor.scannerAt]

theorem scannerAt_cons_succ (c : Nat) (rest : List Nat) (in_string : Bool) (last_char : Nat)
    (output : List Nat) (p : Nat) :
    JsonPreprocessor.scannerAt (c :: rest) in_string last_char output (p + 1)
      = if (JsonPreprocessor.preprocessStep c rest in_string last_char).1 ≤ p then
          JsonPreprocessor.scannerAt
            (rest.drop (JsonPreprocessor.preprocessStep c rest in_string last_char).1)
            (JsonPreprocessor.preprocessStep c rest in_string last_char).2.1
            (JsonPreprocessor.preprocessStep c rest in_string last_char).2.2.1
            (output ++ (JsonPreprocessor.preprocessStep c rest in_string last_char).2.2.2)
            (p - (JsonPreprocessor.preprocessStep c rest in_string last_char).1)
        else none := by
  rw [JsonPreprocessor.scannerAt]

theorem scannerAt_spec (p : Nat) :
    ∀ (data : List Nat) (in_string : Bool) (last_char : Nat) (output : List Nat)
      (st : Bool × Nat × List Nat),
      JsonPreprocessor.scannerAt data in_string last_char output p = some st →
      JsonPreprocessor.preprocessLoop data in_string last_char output
        = JsonPreprocessor.preprocessLoop (data.drop p) st.1 st.2.1 st.2.2 := by
  induction p using Nat.strong_induction_on with
  | _ p ih =>
    intro data ins lc out st h
    cases p with
    | zero =>
      rw [scannerAt_zero] at h
      cases h
      rfl
    | succ p =>
      cases data with
      | nil => rw [scannerAt_nil_succ] at h; cases h
      | cons c rest =>
        rw [scannerAt_cons_succ] at h
        split at h
        · next hle =>
          rw [preprocessLoop_cons, ih _ (by omega) _ _ _ _ st h, List.drop_drop,
            List.drop_succ_cons]
          congr 2
          omega
        · cases h

theorem scannerAt_trans (p : Nat) :
    ∀ (data : List Nat) (in_string : Bool) (last_char : Nat) (output : List Nat)
      (st st2 : Bool × Nat × List Nat) (q : Nat),
      JsonPreprocessor.scannerAt data in_string last_char output p = some st →
      JsonPreprocessor.scannerAt (data.drop p) st.1 st.2.1 st.2.2 q = some st2 →
      JsonPreprocessor.scannerAt data in_string last_char output (p + q) = some st2 := by
  induction p using Nat.strong_induction_on with
  | _ p ih =>
    intro data ins lc out st st2 q h h2
    cases p with
    | zero =>
      rw [scannerAt_zero] at h
      cases h
      simpa using h2
    | succ p =>
      cases data with
      | nil => rw [scannerAt_nil_succ] at h; cases h
      | cons c rest =>
        rw [scannerAt_cons_succ] at h
        split at h
        · next hle =>
          have e : p + 1 + q = (p + q) + 1 := by omega
          rw [e, scannerAt_cons_succ, if_pos (by omega)]
          have e2 : p + q - (JsonPreprocessor.preprocessStep c rest ins lc).1
              = (p - (JsonPreprocessor.preprocessStep c rest ins lc).1) + q := by omega
          rw [e2]
          refine ih _ (by omega) _ _ _ _ st st2 q h ?_
          rw [List.drop_drop]
          rw [List.drop_succ_cons] at h2
          have e3 : (JsonPreprocessor.preprocessStep c rest ins lc).1
              + (p - (JsonPreprocessor.preprocessStep c rest ins lc).1) = p := by omega
          rw [e3]
          exact h2
        · cases h

theorem scannerAt_keyword (c : Nat) (rest : List Nat) (last_char tok k : Nat)
    (output : List Nat)
    (hstep : JsonPreprocessor.preprocessStep c rest false last_char
      = (k, false, last_char, [tok])) :
    JsonPreprocessor.scannerAt (c :: rest) false last_char output (k + 1)
      = some (false, last_char, output ++ [tok]) := by
  rw [scannerAt_cons_succ, hstep]
  simp only [Nat.le_refl, if_true, Nat.sub_self]
  exact scannerAt_zero _ _ _ _

theorem scannerAt_after_keyword (x : List Nat) (p lc tok k : Nat) (out tail : List Nat)
    (c : Nat) (rest : List Nat)
    (hp : JsonPreprocessor.scannerAt x false 0 [] p = some (false, lc, out))
    (hx : x.drop p = c :: rest) (htail : rest.drop k = tail)
    (hstep : JsonPreprocessor.preprocessStep c rest false lc = (k, false, lc, [tok])) :
    JsonPreprocessor.scannerAt x false 0 [] (p + (k + 1)) = some (false, lc, out ++ [tok])
      ∧ JsonPreprocessor.preprocess x
          = JsonPreprocessor.preprocessLoop tail false lc (out ++ [tok]) := by
  have h1 : JsonPreprocessor.scannerAt x false 0 [] (p + (k + 1))
      = some (false, lc, out ++ [tok]) := by
    refine scannerAt_trans p x false 0 [] (false, lc, out) _ (k + 1) hp ?_
    rw [hx]
    exact scannerAt_keyword c rest lc tok k out hstep
  refine ⟨h1, ?_⟩
  have h2 := scannerAt_spec _ x false 0 [] _ h1
  have h3 : x.drop (p + (k + 1)) = tail := by
    rw [← List.drop_drop, hx, List.drop_succ_cons, htail]
  rw [h3] at h2
  exact h2

/-- C17 (keyword tokenization): when the scanner of `preprocess` stands at a position
`p` outside a string where the spelling `true`, `false` or `null` begins (followed by
anything, or by the end of the input), it appends the single byte `0xF7`, `0xF8` or
`0xF9` and next stands right after the spelling, at `p + 4`, `p + 5` or `p + 4`, still
outside a string; the rest of the run is the scan of what follows the spelling. -/
theorem C17_keyword_tokenization (x : List Nat) (p lc : Nat) (out tail : List Nat)
    (hp : JsonPreprocessor.scannerAt x false 0 [] p = some (false, lc, out)) :
    (x.drop p = [0x74, 0x72, 0x75, 0x65] ++ tail →
        JsonPreprocessor.scannerAt x false 0 [] (p + 4) = some (false, lc, out ++ [0xF7])
          ∧ JsonPreprocessor.preprocess x
              = JsonPreprocessor.preprocessLoop tail false lc (out ++ [0xF7]))
      ∧ (x.drop p = [0x66, 0x61, 0x6C, 0x73, 0x65] ++ tail →
        JsonPreprocessor.scannerAt x false 0 [] (p + 5) = some (false, lc, out ++ [0xF8])
          ∧ JsonPreprocessor.preprocess x
              = JsonPreprocessor.preprocessLoop tail false lc (out ++ [0xF8]))
      ∧ (x.drop p = [0x6E, 0x75, 0x6C, 0x6C] ++ tail →
        JsonPreprocessor.scannerAt x false 0 [] (p + 4) = some (false, lc, out ++ [0xF9])
          ∧ JsonPreprocessor.preprocess x
              = JsonPreprocessor.preprocessLoop tail false lc (out ++ [0xF9])) := by
  refine ⟨fun hx => ?_, fun hx => ?_, fun hx => ?_⟩
  · exact scannerAt_after_keyword x p lc 0xF7 3 out tail 0x74 (0x72 :: 0x75 :: 0x65 :: tail)
      hp hx rfl (by simp [JsonPreprocessor.preprocessStep])
  · exact scannerAt_after_keyword x p lc 0xF8 4 out tail 0x66
      (0x61 :: 0x6C :: 0x73 :: 0x65 :: tail) hp hx rfl
      (by simp [JsonPreprocessor.preprocessStep])
  · exact scannerAt_after_keyword x p lc 0xF9 3 out tail 0x6E (0x75 :: 0x6C :: 0x6C :: tail)
      hp hx rfl (by simp [JsonPreprocessor.preprocessStep])

/-- Witness for C17: the four-byte input `true`, whose spelling ends exactly at the end
of the input, is turned into the single byte `0xF7`. -/
theorem C17_keyword_tokenization_witness :
    JsonPreprocessor.preprocess [0x74, 0x72, 0x75, 0x65] = [0xF7] := by
  have h := (C17_keyword_tokenization [0x74, 0x72, 0x75, 0x65] 0 0 [] []
    (scannerAt_zero _ _ _ _)).1 rfl
  simpa [JsonPreprocessor.preprocessLoop] using h.2

/-! ### Inserting whitespace where the scanner stands outside a string -/

theorem take_insert_eq_iff (rest : List Nat) (p ws k : Nat) (kw : List Nat)
    (hk : kw.length = k) (hws : ws ∉ kw) :
    (rest.take p ++ ws :: rest.drop p).take k = kw ↔ (rest.take k = kw ∧ k ≤ p) := by
  constructor
  · intro h
    by_cases hle : k ≤ (rest.take p).length
    · rw [List.take_append_of_le_length hle, List.take_take] at h
      have hkp : k ≤ p := by
        rw [List.length_take] at hle; omega
      rw [Nat.min_eq_left hkp] at h
      exact ⟨h, hkp⟩
    · exfalso
      apply hws
      rw [← h, List.take_append_eq_append_take]
      have hpos : k - (rest.take p).length = (k - (rest.take p).length - 1) + 1 := by omega
      rw [hpos, List.take_succ_cons]
      simp
  · rintro ⟨h, hkp⟩
    have hlen : k ≤ rest.length := by
      have := congrArg List.length h
      rw [List.length_take, hk] at this
      omega
    have hle : k ≤ (rest.take p).length := by
      rw [List.length_take]; omega
    rw [List.take_append_of_le_length hle, List.take_take, Nat.min_eq_left hkp]
    exact h

theorem head?_eq_some_iff_take (l : List Nat) (a : Nat) :
    l.head? = some a ↔ l.take 1 = [a] := by
  cases l <;> simp

theorem drop_insert (rest : List Nat) (p ws k : Nat) (hkp : k ≤ p) (hk : k ≤ rest.length) :
    (rest.take p ++ ws :: rest.drop p).drop k
      = (rest.drop k).take (p - k) ++ ws :: (rest.drop k).drop (p - k) := by
  have hle : k ≤ (rest.take p).length := by
    rw [List.length_take]; omega
  rw [List.drop_append_of_le_length hle, List.drop_take, List.drop_drop]
  congr 3
  omega

theorem preprocessStep_fst_le (c : Nat) (rest : List Nat) (in_string : Bool)
    (last_char : Nat) :
    (JsonPreprocessor.preprocessStep c rest in_string last_char).1 ≤ rest.length := by
  have hlen : ∀ (k : Nat) (kw : List Nat), rest.take k = kw → kw.length = k →
      k ≤ rest.length := by
    intro k kw h hk
    have := congrArg List.length h
    rw [List.length_take, hk] at this
    omega
  unfold JsonPreprocessor.preprocessStep
  cases in_string
  · simp only [Bool.false_eq_true, if_false]
    by_cases h0 : c = 0x7B
    · simp only [if_pos h0]
      exact Nat.zero_le _
    simp only [if_neg h0]
    by_cases h1 : c = 0x7D
    · simp only [if_pos h1]
      exact Nat.zero_le _
    simp only [if_neg h1]
    by_cases h2 : c = 0x5B
    · simp only [if_pos h2]
      exact Nat.zero_le _
    simp only [if_neg h2]
    by_cases h3 : c = 0x5D
    · simp only [if_pos h3]
      exact Nat.zero_le _
    simp only [if_neg h3]
    by_cases h4 : c = 0x3A
    · simp only [if_pos h4]
      exact Nat.zero_le _
    simp only [if_neg h4]
    by_cases h5 : c = 0x2C
    · simp only [if_pos h5]
      exact Nat.zero_le _
    simp only [if_neg h5]
    by_cases h6 : c = 0x22
    · simp only [if_pos h6]
      exact Nat.zero_le _
    simp only [if_neg h6]
    by_cases h7 : c = 0x20 ∨ c = 0x09 ∨ c = 0x0A ∨ c = 0x0D
    · simp only [if_pos h7]
      exact Nat.zero_le _
    simp only [if_neg h7]
    by_cases h8 : c = 0x74 ∧ rest.take 3 = [0x72, 0x75, 0x65]
    · simp only [if_pos h8]
      exact hlen 3 _ h8.2 rfl
    simp only [if_neg h8]
    by_cases h9 : c = 0x66 ∧ rest.take 4 = [0x61, 0x6C, 0x73, 0x65]
    · simp only [if_pos h9]
      exact hlen 4 _ h9.2 rfl
    simp only [if_neg h9]
    by_cases h10 : c = 0x6E ∧ rest.take 3 = [0x75, 0x6C, 0x6C]
    · simp only [if_pos h10]
      exact hlen 3 _ h10.2 rfl
    simp only [if_neg h10]
    exact Nat.zero_le _
  · simp only [if_true]
    by_cases h0 : c = escapedQuoteLiteral ∧ rest.head? = some 0x22
    · simp only [if_pos h0]
      exact hlen 1 [0x22] ((head?_eq_some_iff_take _ _).1 h0.2) rfl
    simp only [if_neg h0]
    by_cases h1 : c = 0x22
    · simp only [if_pos h1]
      exact Nat.zero_le _
    simp only [if_neg h1]
    by_cases h2 : last_char ≠ 0 ∧ c &&& 0xC0 = 0x80 ∧ last_char &&& 0xC0 = 0x80
    · simp only [if_pos h2]
      exact Nat.zero_le _
    simp only [if_neg h2]
    exact Nat.zero_le _

theorem preprocessStep_whitespace (ws : Nat) (rest : List Nat) (last_char : Nat)
    (hws : ws = 0x20 ∨ ws = 0x09 ∨ ws = 0x0A ∨ ws = 0x0D) :
    JsonPreprocessor.preprocessStep ws rest false last_char = (0, false, last_char, []) := by
  rcases hws with rfl | rfl | rfl | rfl <;> simp [JsonPreprocessor.preprocessStep]

theorem preprocessStep_insert (c : Nat) (rest : List Nat) (in_string : Bool)
    (last_char p ws : Nat) (hws : ws = 0x20 ∨ ws = 0x09 ∨ ws = 0x0A ∨ ws = 0x0D)
    (hs : (JsonPreprocessor.preprocessStep c rest in_string last_char).1 ≤ p) :
    JsonPreprocessor.preprocessStep c (rest.take p ++ ws :: rest.drop p) in_string last_char
      = JsonPreprocessor.preprocessStep c rest in_string last_char := by
  have eT : (rest.take p ++ ws :: rest.drop p).take 3 = [0x72, 0x75, 0x65]
      ↔ (rest.take 3 = [0x72, 0x75, 0x65] ∧ 3 ≤ p) :=
    take_insert_eq_iff rest p ws 3 _ rfl (by rcases hws with rfl | rfl | rfl | rfl <;> decide)
  have eF : (rest.take p ++ ws :: rest.drop p).take 4 = [0x61, 0x6C, 0x73, 0x65]
      ↔ (rest.take 4 = [0x61, 0x6C, 0x73, 0x65] ∧ 4 ≤ p) :=
    take_insert_eq_iff rest p ws 4 _ rfl (by rcases hws with rfl | rfl | rfl | rfl <;> decide)
  have eN : (rest.take p ++ ws :: rest.drop p).take 3 = [0x75, 0x6C, 0x6C]
      ↔ (rest.take 3 = [0x75, 0x6C, 0x6C] ∧ 3 ≤ p) :=
    take_insert_eq_iff rest p ws 3 _ rfl (by rcases hws with rfl | rfl | rfl | rfl <;> decide)
  have eQ : (rest.take p ++ ws :: rest.drop p).head? = some 0x22
      ↔ (rest.head? = some 0x22 ∧ 1 ≤ p) := by
    rw [head?_eq_some_iff_take, head?_eq_some_iff_take]
    exact take_insert_eq_iff rest p ws 1 _ rfl
      (by rcases hws with rfl | rfl | rfl | rfl <;> decide)
  generalize rest.take p ++ ws :: rest.drop p = rest2 at eT eF eN eQ ⊢
  unfold JsonPreprocessor.preprocessStep at hs ⊢
  cases in_string
  · simp only [Bool.false_eq_true, if_false] at hs ⊢
    by_cases h0 : c = 0x7B
    · simp only [if_pos h0]
    simp only [if_neg h0] at hs ⊢
    by_cases h1 : c = 0x7D
    · simp only [if_pos h1]
    simp only [if_neg h1] at hs ⊢
    by_cases h2 : c = 0x5B
    · simp only [if_pos h2]
    simp only [if_neg h2] at hs ⊢
    by_cases h3 : c = 0x5D
    · simp only [if_pos h3]
    simp only [if_neg h3] at hs ⊢
    by_cases h4 : c = 0x3A
    · simp only [if_pos h4]
    simp only [if_neg h4] at hs ⊢
    by_cases h5 : c = 0x2C
    · simp only [if_pos h5]
    simp only [if_neg h5] at hs ⊢
    by_cases h6 : c = 0x22
    · simp only [if_pos h6]
    simp only [if_neg h6] at hs ⊢
    by_cases h7 : c = 0x20 ∨ c = 0x09 ∨ c = 0x0A ∨ c = 0x0D
    · simp only [if_pos h7]
    simp only [if_neg h7] at hs ⊢
    by_cases h8 : c = 0x74 ∧ rest.take 3 = [0x72, 0x75, 0x65]
    · simp only [if_pos h8] at hs
      have h8b : c = 0x74 ∧ rest2.take 3 = [0x72, 0x75, 0x65] := ⟨h8.1, eT.2 ⟨h8.2, hs⟩⟩
      simp only [if_pos h8, if_pos h8b]
    have h8b : ¬ (c = 0x74 ∧ rest2.take 3 = [0x72, 0x75, 0x65]) := fun h => h8 ⟨h.1, (eT.1 h.2).1⟩
    simp only [if_neg h8, if_neg h8b] at hs ⊢
    by_cases h9 : c = 0x66 ∧ rest.take 4 = [0x61, 0x6C, 0x73, 0x65]
    · simp only [if_pos h9] at hs
      have h9b : c = 0x66 ∧ rest2.take 4 = [0x61, 0x6C, 0x73, 0x65] := ⟨h9.1, eF.2 ⟨h9.2, hs⟩⟩
      simp only [if_pos h9, if_pos h9b]
    have h9b : ¬ (c = 0x66 ∧ rest2.take 4 = [0x61, 0x6C, 0x73, 0x65]) :=
      fun h => h9 ⟨h.1, (eF.1 h.2).1⟩
    simp only [if_neg h9, if_neg h9b] at hs ⊢
    by_cases h10 : c = 0x6E ∧ rest.take 3 = [0x75, 0x6C, 0x6C]
    · simp only [if_pos h10] at hs
      have h10b : c = 0x6E ∧ rest2.take 3 = [0x75, 0x6C, 0x6C] := ⟨h10.1, eN.2 ⟨h10.2, hs⟩⟩
      simp only [if_pos h10, if_pos h10b]
    have h10b : ¬ (c = 0x6E ∧ rest2.take 3 = [0x75, 0x6C, 0x6C]) := fun h => h10 ⟨h.1, (eN.1 h.2).1⟩
    simp only [if_neg h10, if_neg h10b] at hs ⊢
  · simp only [if_true] at hs ⊢
    by_cases h0 : c = escapedQuoteLiteral ∧ rest.head? = some 0x22
    · simp only [if_pos h0] at hs
      have h0b : c = escapedQuoteLiteral ∧ rest2.head? = some 0x22 := ⟨h0.1, eQ.2 ⟨h0.2, hs⟩⟩
      simp only [if_pos h0, if_pos h0b]
    have h0b : ¬ (c = escapedQuoteLiteral ∧ rest2.head? = some 0x22) :=
      fun h => h0 ⟨h.1, (eQ.1 h.2).1⟩
    simp only [if_neg h0, if_neg h0b] at hs ⊢

theorem insert_cons (c : Nat) (rest : List Nat) (p ws : Nat) :
    (c :: rest).take (p + 1) ++ ws :: (c :: rest).drop (p + 1)
      = c :: (rest.take p ++ ws :: rest.drop p) := by
  simp

theorem preprocessLoop_insert_whitespace (ws : Nat)
    (hws : ws = 0x20 ∨ ws = 0x09 ∨ ws = 0x0A ∨ ws = 0x0D) (p : Nat) :
    ∀ (data : List Nat) (in_string : Bool) (last_char : Nat) (output : List Nat)
      (st : Bool × Nat × List Nat),
      JsonPreprocessor.scannerAt data in_string last_char output p = some st →
      st.1 = false →
      JsonPreprocessor.preprocessLoop (data.take p ++ ws :: data.drop p) in_string last_char
          output
        = JsonPreprocessor.preprocessLoop data in_string last_char output := by
  induction p using Nat.strong_induction_on with
  | _ p ih =>
    intro data ins lc out st h hst
    cases p with
    | zero =>
      rw [scannerAt_zero] at h
      cases h
      simp only at hst
      subst hst
      rw [List.take_zero, List.drop_zero, List.nil_append, preprocessLoop_cons,
        preprocessStep_whitespace ws data lc hws]
      simp only [List.drop_zero, List.append_nil]
    | succ p =>
      cases data with
      | nil => rw [scannerAt_nil_succ] at h; cases h
      | cons c rest =>
        rw [scannerAt_cons_succ] at h
        split at h
        · next hle =>
          rw [insert_cons, preprocessLoop_cons, preprocessLoop_cons c rest,
            preprocessStep_insert c rest ins lc p ws hws hle,
            drop_insert rest p ws _ hle (preprocessStep_fst_le c rest ins lc)]
          exact ih _ (by omega) _ _ _ _ st h hst
        · cases h

/-- C14 (whitespace normalization): if the scanner of `preprocess` stands at position `p`
of `x` outside a string (so `p` is not inside a keyword spelling it steps over; `p` may be
the end of the input), then inserting one space, tab, LF or CR byte at `p` does not
change `preprocess x`. -/
theorem C14_whitespace_insertion (x : List Nat) (p ws lc : Nat) (out : List Nat)
    (hws : ws = 0x20 ∨ ws = 0x09 ∨ ws = 0x0A ∨ ws = 0x0D)
    (hp : JsonPreprocessor.scannerAt x false 0 [] p = some (false, lc, out)) :
    JsonPreprocessor.preprocess (x.take p ++ ws :: x.drop p) = JsonPreprocessor.preprocess x :=
  preprocessLoop_insert_whitespace ws hws p x false 0 [] (false, lc, out) hp rfl

/-- Witness for C14: `{"a": 1}` and `{"a":1}` give the same token stream. -/
theorem C14_whitespace_insertion_witness :
    JsonPreprocessor.preprocess [0x7B, 0x22, 0x61, 0x22, 0x3A, 0x20, 0x31, 0x7D]
      = JsonPreprocessor.preprocess [0x7B, 0x22, 0x61, 0x22, 0x3A, 0x31, 0x7D] :=
  C14_whitespace_insertion [0x7B, 0x22, 0x61, 0x22, 0x3A, 0x31, 0x7D] 5 0x20 0x61
    [0xF0, 0xF6, 0x61, 0xF6, 0xF4] (Or.inl rfl) (by decide!)

/-! ### Bounds of the blocks the whole-buffer encoders write -/

theorem wireBlocks_append (a b : List EmittedBlock) :
    wireBlocks (a ++ b) = wireBlocks a ++ wireBlocks b := by
  induction a with
  | nil => rfl
  | cons x xs ih => simp [wireBlocks, ih]

theorem coveredBytes_append (a b : List EmittedBlock) :
    coveredBytes (a ++ b) = coveredBytes a + coveredBytes b := by
  induction a with
  | nil => simp [coveredBytes]
  | cons x xs ih => simp [coveredBytes, ih]; omega

theorem blocksInBounds_append (a : List EmittedBlock) :
    ∀ (n : Nat) (b : EmittedBlock), blocksInBounds n a → b.InBounds (n + coveredBytes a) →
      blocksInBounds n (a ++ [b]) := by
  induction a with
  | nil => intro n b _ hb; exact ⟨by simpa [coveredBytes] using hb, trivial⟩
  | cons x xs ih =>
    intro n b ha hb
    refine ⟨ha.1, ih _ b ha.2 ?_⟩
    have e : n + x.covers + coveredBytes xs = n + coveredBytes (x :: xs) := by
      simp [coveredBytes]; omega
    rw [e]; exact hb

theorem EmittedInBounds.ofNil : EmittedInBounds [] 0 := ⟨[], rfl, trivial, rfl⟩

theorem EmittedInBounds.block {out : List Nat} {n : Nat} (h : EmittedInBounds out n)
    (b : EmittedBlock) (hb : b.InBounds n) : EmittedInBounds (out ++ b.wire) (n + b.covers) := by
  obtain ⟨blocks, hout, hbounds, hcov⟩ := h
  refine ⟨blocks ++ [b], ?_, blocksInBounds_append blocks 0 b hbounds ?_, ?_⟩
  · rw [wireBlocks_append, hout]; simp [wireBlocks]
  · rw [Nat.zero_add, hcov]; exact hb
  · rw [coveredBytes_append, hcov]; simp [coveredBytes]

theorem EmittedInBounds.flushLiterals {out : List Nat} {n : Nat} (h : EmittedInBounds out n)
    (lit : List Nat) (hlit : lit.length ≤ 127) :
    EmittedInBounds (flush_literals out lit) (n + lit.length) := by
  unfold flush_literals
  cases lit with
  | nil => simpa using h
  | cons b bs =>
    simp only [List.isEmpty_cons, Bool.false_eq_true, if_false]
    exact h.block (.literal (b :: bs)) ⟨by simp, hlit⟩

theorem EmittedInBounds.shortMatch {out : List Nat} {n : Nat} (h : EmittedInBounds out n)
    (len dist : Nat) (h3 : 3 ≤ len) (h130 : len ≤ 130) (hd1 : 1 ≤ dist) (hd16 : dist ≤ 65535)
    (hd : dist ≤ n) : EmittedInBounds (out ++ matchBlockBytes len dist) (n + len) :=
  h.block (.shortMatch len dist) ⟨h3, h130, hd1, hd16, hd⟩

theorem EmittedInBounds.extendedMatch {out : List Nat} {n : Nat} (h : EmittedInBounds out n)
    (len dist : Nat) (h3 : 3 ≤ len) (hlen : len ≤ 65535) (hd1 : 1 ≤ dist)
    (hd16 : dist ≤ 65535) (hd : dist ≤ n) :
    EmittedInBounds
      (out ++ [0xFF, len &&& 0xFF, (len >>> 8) &&& 0xFF, (dist % 65536) &&& 0xFF,
        ((dist % 65536) >>> 8) &&& 0xFF]) (n + len) := by
  have hb := h.block (.extendedMatch len dist) ⟨h3, hlen, hd1, hd16, hd⟩
  have e : len % 65536 = len := Nat.mod_eq_of_lt (by omega)
  simpa [EmittedBlock.wire, EmittedBlock.covers, e] using hb

theorem EmittedBlock.wire_eq_format (b : EmittedBlock) (n : Nat) (hb : b.InBounds n) :
    b.wire = match b with
      | .literal bytes => bytes.length :: bytes
      | .shortMatch len dist => [0x80 ||| (len - 3), dist % 256, dist / 256]
      | .extendedMatch len dist => [0xFF, len % 256, len / 256, dist % 256, dist / 256] := by
  have e4 : ∀ x : Nat, x &&& 0xFF = x % 256 := fun x => Nat.and_pow_two_sub_one_eq_mod x 8
  cases b with
  | literal bytes =>
    simp only [EmittedBlock.InBounds] at hb
    simp only [EmittedBlock.wire]
    rw [Nat.mod_eq_of_lt (by omega)]
  | shortMatch len dist =>
    simp only [EmittedBlock.InBounds] at hb
    exact matchBlockBytes_eq len dist hb.1 hb.2.1 hb.2.2.2.1
  | extendedMatch len dist =>
    simp only [EmittedBlock.InBounds] at hb
    have e1 : len % 65536 = len := Nat.mod_eq_of_lt (by omega)
    have e2 : dist % 65536 = dist := Nat.mod_eq_of_lt (by omega)
    have e3 : len / 2 ^ 8 % 256 = len / 256 := by omega
    have e5 : dist / 2 ^ 8 % 256 = dist / 256 := by omega
    simp only [EmittedBlock.wire]
    rw [e1, e2, e4, e4, e4, e4, Nat.shiftRight_eq_div_pow, Nat.shiftRight_eq_div_pow, e3, e5]

theorem compressLoop_bounds (data : List Nat) :
    ∀ (fuel i : Nat) (lit out : List Nat) (table : HashTable) (n : Nat),
      data.length - i < fuel → i ≤ data.length → lit.length < 127 → n + lit.length = i →
      EmittedInBounds out n → TableBelow table i →
      ∃ C, compressLoop data fuel i lit out table = .returns C
        ∧ EmittedInBounds C data.length := by
  intro fuel
  induction fuel with
  | zero => intro i lit out table n hf; omega
  | succ fuel ih =>
    intro i lit out table n hf hi hlit hn hem htab
    rw [compressLoop]
    by_cases hlt : i < data.length
    · rw [if_pos hlt]
      obtain ⟨htab2, hmatch⟩ := find_match_fast_spec data i table htab
      simp only
      by_cases hm : (find_match_fast data i table).1 ≥ 4
      · rw [if_pos hm]
        obtain ⟨h258, hma⟩ := hmatch hm
        have hfl := hem.flushLiterals lit (by omega)
        rw [hn] at hfl
        by_cases hext : (find_match_fast data i table).1 > 130
        · rw [if_pos hext]
          have hl16 : min (find_match_fast data i table).1 65535 % 65536
              = (find_match_fast data i table).1 := by omega
          rw [hl16]
          have hem2 := hfl.extendedMatch (find_match_fast data i table).1
            (find_match_fast data i table).2.1 (by omega) (by omega) hma.2.1 hma.2.2.1
            hma.2.2.2.1
          exact ih _ [] _ _ _ (by omega) hma.1 (by decide) (by simp) hem2
            (htab2.mono (by omega))
        · rw [if_neg hext, emitSegments_single _ _ _ _ (by omega) (by omega)]
          simp only
          have hem2 := hfl.shortMatch (find_match_fast data i table).1
            (find_match_fast data i table).2.1 (by omega) (by omega) hma.2.1 hma.2.2.1
            hma.2.2.2.1
          exact ih _ [] _ _ _ (by omega) hma.1 (by decide) (by simp) hem2
            (htab2.mono (by omega))
      · rw [if_neg hm]
        have hlen2 : (lit ++ [byteAt data i]).length = lit.length + 1 := by simp
        by_cases h127 : (lit ++ [byteAt data i]).length = 127
        · rw [if_pos h127]
          have hem2 := hem.flushLiterals (lit ++ [byteAt data i]) (by omega)
          rw [hlen2] at hem2
          exact ih _ [] _ _ (n + (lit.length + 1)) (by omega) (by omega) (by decide)
            (by simp; omega) hem2 htab2
        · rw [if_neg h127]
          exact ih _ _ _ _ n (by omega) (by omega) (by omega) (by omega) hem htab2
    · rw [if_neg hlt]
      refine ⟨_, rfl, ?_⟩
      have hem2 := hem.flushLiterals lit (by omega)
      have e : n + lit.length = data.length := by omega
      rw [e] at hem2
      exact hem2

theorem compressFastLoop_bounds (data : List Nat) :
    ∀ (fuel i : Nat) (lit out : List Nat) (table : HashTable) (n : Nat),
      data.length - i < fuel → i ≤ data.length → lit.length < 127 → n + lit.length = i →
      EmittedInBounds out n → TableBelow table i →
      ∃ C, compressFastLoop data fuel i lit out table = .returns C
        ∧ EmittedInBounds C data.length := by
  intro fuel
  induction fuel with
  | zero => intro i lit out table n hf; omega
  | succ fuel ih =>
    intro i lit out table n hf hi hlit hn hem htab
    rw [compressFastLoop]
    by_cases hlt : i < data.length
    · rw [if_pos hlt]
      obtain ⟨htab2, hmatch⟩ := find_match_ultrafast_spec data i table htab
      simp only
      by_cases hm : (find_match_ultrafast data i table).1 ≥ 4
      · rw [if_pos hm]
        obtain ⟨h64, hma⟩ := hmatch hm
        have hfl := hem.flushLiterals lit (by omega)
        rw [hn] at hfl
        rw [emitSegments_single _ _ _ _ (by omega) (by omega)]
        simp only
        have hem2 := hfl.shortMatch (find_match_ultrafast data i table).1
          (find_match_ultrafast data i table).2.1 (by omega) (by omega) hma.2.1 hma.2.2.1
          hma.2.2.2.1
        exact ih _ [] _ _ _ (by omega) hma.1 (by decide) (by simp) hem2
          (htab2.mono (by omega))
      · rw [if_neg hm]
        have hlen2 : (lit ++ [byteAt data i]).length = lit.length + 1 := by simp
        by_cases h127 : (lit ++ [byteAt data i]).length = 127
        · rw [if_pos h127]
          have hem2 := hem.flushLiterals (lit ++ [byteAt data i]) (by omega)
          rw [hlen2] at hem2
          exact ih _ [] _ _ (n + (lit.length + 1)) (by omega) (by omega) (by decide)
            (by simp; omega) hem2 htab2
        · rw [if_neg h127]
          exact ih _ _ _ _ n (by omega) (by omega) (by omega) (by omega) hem htab2
    · rw [if_neg hlt]
      refine ⟨_, rfl, ?_⟩
      have hem2 := hem.flushLiterals lit (by omega)
      have e : n + lit.length = data.length := by omega
      rw [e] at hem2
      exact hem2

/-- C11 (bounds of the emitted blocks): for every input `B`, the output of `compress`
and the output of `compress_fast` are the bytes of a sequence of blocks, standing for
all `|B|` input bytes, in which every literal block has a count in `[1, 127]`, every
short match a length in `[3, 130]`, every extended match a length in `[3, 65535]`, and
every match a distance in `[1, 65535]` that does not exceed the number of input bytes
encoded before the block. -/
theorem C11_emitted_block_bounds (B : List Nat) :
    (∃ blocks, compress B = .returns (wireBlocks blocks) ∧ blocksInBounds 0 blocks
        ∧ coveredBytes blocks = B.length)
      ∧ (∃ blocks, compress_fast B = .returns (wireBlocks blocks) ∧ blocksInBounds 0 blocks
        ∧ coveredBytes blocks = B.length) := by
  constructor
  · obtain ⟨C, hC, blocks, hw, hb, hc⟩ :=
      compressLoop_bounds B (B.length + 1) 0 [] [] HashTable.empty 0 (by omega)
        (Nat.zero_le _) (by decide) rfl EmittedInBounds.ofNil (TableBelow.empty 0)
    exact ⟨blocks, by rw [← hw]; exact hC, hb, hc⟩
  · obtain ⟨C, hC, blocks, hw, hb, hc⟩ :=
      compressFastLoop_bounds B (B.length + 1) 0 [] [] HashTable.empty 0 (by omega)
        (Nat.zero_le _) (by decide) rfl EmittedInBounds.ofNil (TableBelow.empty 0)
    exact ⟨blocks, by rw [← hw]; exact hC, hb, hc⟩

/-! ### `delta_encode` without adjacent continuation bytes -/

theorem deltaLoop_identity (rest : List Nat) :
    ∀ (prev : Nat) (out : List Nat),
      (∀ i, i + 1 < (prev :: rest).length →
        ¬ (byteAt (prev :: rest) i &&& 0xC0 = 0x80
          ∧ byteAt (prev :: rest) (i + 1) &&& 0xC0 = 0x80)) →
      Utf8Transformer.deltaLoop prev rest out = out ++ rest := by
  induction rest with
  | nil => intro prev out _; simp [Utf8Transformer.deltaLoop]
  | cons c r ih =>
    intro prev out h
    have h0 := h 0 (by simp)
    have hshift : ∀ i, i + 1 < (c :: r).length →
        ¬ (byteAt (c :: r) i &&& 0xC0 = 0x80 ∧ byteAt (c :: r) (i + 1) &&& 0xC0 = 0x80) := by
      intro i hi
      exact h (i + 1) (by simp only [List.length_cons] at hi ⊢; omega)
    rw [Utf8Transformer.deltaLoop]
    split
    · next hc => exact absurd ⟨hc.2, hc.1⟩ h0
    · rw [ih c _ hshift]; simp

/-- C26 (`delta_encode` on buffers without adjacent continuation bytes): if no two
adjacent bytes of `x` both have top bits `10`, then `delta_encode` returns `x`, and
applying it twice returns `x`. -/
theorem C26_delta_encode_identity (x : List Nat)
    (h : ∀ i, i + 1 < x.length →
      ¬ (byteAt x i &&& 0xC0 = 0x80 ∧ byteAt x (i + 1) &&& 0xC0 = 0x80)) :
    Utf8Transformer.delta_encode [] x = x
      ∧ Utf8Transformer.delta_encode [] (Utf8Transformer.delta_encode [] x) = x := by
  have h1 : Utf8Transformer.delta_encode [] x = x := by
    cases x with
    | nil => rfl
    | cons a r =>
      simp only [Utf8Transformer.delta_encode]
      rw [deltaLoop_identity r a _ h]
      rfl
  exact ⟨h1, by rw [h1, h1]⟩

/-- Witness for C26: the bytes of "éA" (`C3 A9 41`), a 2-byte and a 1-byte code point. -/
theorem C26_delta_encode_identity_witness :
    Utf8Transformer.delta_encode [] [0xC3, 0xA9, 0x41] = [0xC3, 0xA9, 0x41]
      ∧ Utf8Transformer.delta_encode [] (Utf8Transformer.delta_encode [] [0xC3, 0xA9, 0x41])
          = [0xC3, 0xA9, 0x41] :=
  C26_delta_encode_identity [0xC3, 0xA9, 0x41] (by
    intro i hi
    have hi2 : i < 2 := by simp only [List.length_cons, List.length_nil] at hi; omega
    match i, hi2 with
    | 0, _ => decide
    | 1, _ => decide)

/-! ### Worst-case size of the output of the whole-buffer encoders -/

theorem flush_literals_length (out lit : List Nat) :
    (flush_literals out lit).length
      = out.length + (if lit.length = 0 then 0 else lit.length + 1) := by
  unfold flush_literals
  cases lit with
  | nil => simp
  | cons b bs => simp

theorem matchBlockBytes_length (take dist : Nat) : (matchBlockBytes take dist).length = 3 := by
  simp [matchBlockBytes]

theorem compressLoop_size (data : List Nat) :
    ∀ (fuel i : Nat) (lit out : List Nat) (table : HashTable) (c : Nat),
      data.length - i < fuel → i ≤ data.length → lit.length < 127 → c + lit.length = i →
      out.length ≤ c + c / 127 → TableBelow table i →
      ∃ C, compressLoop data fuel i lit out table = .returns C
        ∧ C.length ≤ data.length + (data.length + 126) / 127 := by
  intro fuel
  induction fuel with
  | zero => intro i lit out table c hf; omega
  | succ fuel ih =>
    intro i lit out table c hf hi hlit hc hout htab
    rw [compressLoop]
    by_cases hlt : i < data.length
    · rw [if_pos hlt]
      obtain ⟨htab2, hmatch⟩ := find_match_fast_spec data i table htab
      simp only
      by_cases hm : (find_match_fast data i table).1 ≥ 4
      · rw [if_pos hm]
        obtain ⟨h258, hma⟩ := hmatch hm
        have hfl := flush_literals_length out lit
        by_cases hext : (find_match_fast data i table).1 > 130
        · rw [if_pos hext]
          have hl16 : min (find_match_fast data i table).1 65535 % 65536
              = (find_match_fast data i table).1 := by omega
          rw [hl16]
          refine ih _ [] _ _ (i + (find_match_fast data i table).1) (by omega) hma.1
            (by decide) (by simp) ?_ (htab2.mono (by omega))
          simp only [List.length_append, List.length_cons, List.length_nil, hfl]
          split <;> omega
        · rw [if_neg hext, emitSegments_single _ _ _ _ (by omega) (by omega)]
          simp only
          refine ih _ [] _ _ (i + (find_match_fast data i table).1) (by omega) hma.1
            (by decide) (by simp) ?_ (htab2.mono (by omega))
          simp only [List.length_append, matchBlockBytes_length, hfl]
          split <;> omega
      · rw [if_neg hm]
        have hlen2 : (lit ++ [byteAt data i]).length = lit.length + 1 := by simp
        by_cases h127 : (lit ++ [byteAt data i]).length = 127
        · rw [if_pos h127]
          refine ih _ [] _ _ (i + 1) (by omega) (by omega) (by decide) (by simp) ?_ htab2
          rw [flush_literals_length, h127, if_neg (by decide)]
          omega
        · rw [if_neg h127]
          exact ih _ _ _ _ c (by omega) (by omega) (by omega) (by omega) hout htab2
    · rw [if_neg hlt]
      refine ⟨_, rfl, ?_⟩
      rw [flush_literals_length]
      split <;> omega

theorem compressFastLoop_size (data : List Nat) :
    ∀ (fuel i : Nat) (lit out : List Nat) (table : HashTable) (c : Nat),
      data.length - i < fuel → i ≤ data.length → lit.length < 127 → c + lit.length = i →
      out.length ≤ c + c / 127 → TableBelow table i →
      ∃ C, compressFastLoop data fuel i lit out table = .returns C
        ∧ C.length ≤ data.length + (data.length + 126) / 127 := by
  intro fuel
  induction fuel with
  | zero => intro i lit out table c hf; omega
  | succ fuel ih =>
    intro i lit out table c hf hi hlit hc hout htab
    rw [compressFastLoop]
    by_cases hlt : i < data.length
    · rw [if_pos hlt]
      obtain ⟨htab2, hmatch⟩ := find_match_ultrafast_spec data i table htab
      simp only
      by_cases hm : (find_match_ultrafast data i table).1 ≥ 4
      · rw [if_pos hm]
        obtain ⟨h64, hma⟩ := hmatch hm
        have hfl := flush_literals_length out lit
        rw [emitSegments_single _ _ _ _ (by omega) (by omega)]
        simp only
        refine ih _ [] _ _ (i + (find_match_ultrafast data i table).1) (by omega) hma.1
          (by decide) (by simp) ?_ (htab2.mono (by omega))
        simp only [List.length_append, matchBlockBytes_length, hfl]
        split <;> omega
      · rw [if_neg hm]
        have hlen2 : (lit ++ [byteAt data i]).length = lit.length + 1 := by simp
        by_cases h127 : (lit ++ [byteAt data i]).length = 127
        · rw [if_pos h127]
          refine ih _ [] _ _ (i + 1) (by omega) (by omega) (by decide) (by simp) ?_ htab2
          rw [flush_literals_length, h127, if_neg (by decide)]
          omega
        · rw [if_neg h127]
          exact ih _ _ _ _ c (by omega) (by omega) (by omega) (by omega) hout htab2
    · rw [if_neg hlt]
      refine ⟨_, rfl, ?_⟩
      rw [flush_literals_length]
      split <;> omega

/-- C27 (worst-case expansion): for every buffer `B` of length `n`, `compress` and
`compress_fast` return outputs of at most `n + ⌈n / 127⌉` bytes. -/
theorem C27_worst_case_expansion (B : List Nat) :
    (∃ C, compress B = .returns C ∧ C.length ≤ B.length + (B.length + 126) / 127)
      ∧ (∃ C, compress_fast B = .returns C
        ∧ C.length ≤ B.length + (B.length + 126) / 127) :=
  ⟨compressLoop_size B (B.length + 1) 0 [] [] HashTable.empty 0 (by omega) (Nat.zero_le _)
      (by decide) rfl (by simp) (TableBelow.empty 0),
   compressFastLoop_size B (B.length + 1) 0 [] [] HashTable.empty 0 (by omega)
      (Nat.zero_le _) (by decide) rfl (by simp) (TableBelow.empty 0)⟩

/-! ### Round trip of the JSON preprocessor on ASCII input without whitespace -/

theorem preprocessLoop_nil (in_string : Bool) (last_char : Nat) (output : List Nat) :
    JsonPreprocessor.preprocessLoop [] in_string last_char output = output := by
  rw [JsonPreprocessor.preprocessLoop]

theorem preprocessLoop_acc (n : Nat) :
    ∀ (data : List Nat) (in_string : Bool) (last_char : Nat) (output : List Nat),
      data.length ≤ n →
      JsonPreprocessor.preprocessLoop data in_string last_char output
        = output ++ JsonPreprocessor.preprocessLoop data in_string last_char [] := by
  induction n with
  | zero =>
    intro data ins lc out hlen
    have : data = [] := List.length_eq_zero.mp (by omega)
    subst this
    rw [preprocessLoop_nil, preprocessLoop_nil, List.append_nil]
  | succ n ih =>
    intro data ins lc out hlen
    cases data with
    | nil => rw [preprocessLoop_nil, preprocessLoop_nil, List.append_nil]
    | cons c rest =>
      have hdrop : (rest.drop (JsonPreprocessor.preprocessStep c rest ins lc).1).length ≤ n := by
        simp only [List.length_cons] at hlen
        rw [List.length_drop]; omega
      rw [preprocessLoop_cons, preprocessLoop_cons c rest ins lc [], ih _ _ _ _ hdrop,
        ih _ _ _ ([] ++ _) hdrop, List.nil_append, List.append_assoc]

theorem not_continuation_of_lt_128 : ∀ c < 128, c &&& 0xC0 ≠ 0x80 := by
  set_option maxRecDepth 100000 in decide

theorem postprocessByte_ascii (prev : Option Nat) (c : Nat) (hc : c < 0x80) :
    JsonPreprocessor.postprocessByte prev c = [c] := by
  unfold JsonPreprocessor.postprocessByte
  rw [if_neg (by omega), if_neg (by omega)]

theorem preprocessStep_ascii (c : Nat) (rest : List Nat) (in_string : Bool) (last_char : Nat)
    (hc : c < 0x80) (hws : c ≠ 0x20 ∧ c ≠ 0x09 ∧ c ≠ 0x0A ∧ c ≠ 0x0D) :
    ∃ e, (JsonPreprocessor.preprocessStep c rest in_string last_char).2.2.2 = [e]
      ∧ ∀ prev, JsonPreprocessor.postprocessByte prev e
          = c :: rest.take (JsonPreprocessor.preprocessStep c rest in_string last_char).1 := by
  unfold JsonPreprocessor.preprocessStep
  cases in_string
  · simp only [Bool.false_eq_true, if_false]
    by_cases h0 : c = 0x7B
    · simp only [if_pos h0]
      exact ⟨0xF0, rfl, fun _ => by rw [h0]; rfl⟩
    simp only [if_neg h0]
    by_cases h1 : c = 0x7D
    · simp only [if_pos h1]
      exact ⟨0xF1, rfl, fun _ => by rw [h1]; rfl⟩
    simp only [if_neg h1]
    by_cases h2 : c = 0x5B
    · simp only [if_pos h2]
      exact ⟨0xF2, rfl, fun _ => by rw [h2]; rfl⟩
    simp only [if_neg h2]
    by_cases h3 : c = 0x5D
    · simp only [if_pos h3]
      exact ⟨0xF3, rfl, fun _ => by rw [h3]; rfl⟩
    simp only [if_neg h3]
    by_cases h4 : c = 0x3A
    · simp only [if_pos h4]
      exact ⟨0xF4, rfl, fun _ => by rw [h4]; rfl⟩
    simp only [if_neg h4]
    by_cases h5 : c = 0x2C
    · simp only [if_pos h5]
      exact ⟨0xF5, rfl, fun _ => by rw [h5]; rfl⟩
    simp only [if_neg h5]
    by_cases h6 : c = 0x22
    · simp only [if_pos h6]
      exact ⟨0xF6, rfl, fun _ => by rw [h6]; rfl⟩
    simp only [if_neg h6]
    have h7 : ¬ (c = 0x20 ∨ c = 0x09 ∨ c = 0x0A ∨ c = 0x0D) := by
      rintro (h | h | h | h)
      · exact hws.1 h
      · exact hws.2.1 h
      · exact hws.2.2.1 h
      · exact hws.2.2.2 h
    simp only [if_neg h7]
    by_cases h8 : c = 0x74 ∧ rest.take 3 = [0x72, 0x75, 0x65]
    · simp only [if_pos h8]
      exact ⟨0xF7, rfl, fun _ => by rw [h8.1, h8.2]; rfl⟩
    simp only [if_neg h8]
    by_cases h9 : c = 0x66 ∧ rest.take 4 = [0x61, 0x6C, 0x73, 0x65]
    · simp only [if_pos h9]
      exact ⟨0xF8, rfl, fun _ => by rw [h9.1, h9.2]; rfl⟩
    simp only [if_neg h9]
    by_cases h10 : c = 0x6E ∧ rest.take 3 = [0x75, 0x6C, 0x6C]
    · simp only [if_pos h10]
      exact ⟨0xF9, rfl, fun _ => by rw [h10.1, h10.2]; rfl⟩
    simp only [if_neg h10]
    exact ⟨c, rfl, fun prev => by rw [List.take_zero]; exact postprocessByte_ascii prev c hc⟩
  · simp only [if_true]
    have h0 : ¬ (c = escapedQuoteLiteral ∧ rest.head? = some 0x22) := by
      rintro ⟨h, _⟩
      simp only [escapedQuoteLiteral] at h
      omega
    simp only [if_neg h0]
    by_cases h1 : c = 0x22
    · simp only [if_pos h1]
      exact ⟨0xF6, rfl, fun _ => by rw [h1]; rfl⟩
    simp only [if_neg h1]
    have h2 : ¬ (last_char ≠ 0 ∧ c &&& 0xC0 = 0x80 ∧ last_char &&& 0xC0 = 0x80) :=
      fun h => not_continuation_of_lt_128 c hc h.2.1
    simp only [if_neg h2]
    exact ⟨c, rfl, fun prev => by rw [List.take_zero]; exact postprocessByte_ascii prev c hc⟩

theorem postprocess_preprocess_ascii (n : Nat) :
    ∀ (data : List Nat), data.length ≤ n →
      (∀ b ∈ data, b < 0x80 ∧ b ≠ 0x20 ∧ b ≠ 0x09 ∧ b ≠ 0x0A ∧ b ≠ 0x0D) →
      ∀ (in_string : Bool) (last_char : Nat) (prev : Option Nat) (acc : List Nat),
        JsonPreprocessor.postprocessLoop prev
            (JsonPreprocessor.preprocessLoop data in_string last_char []) acc
          = acc ++ data := by
  induction n with
  | zero =>
    intro data hlen _ ins lc prev acc
    have : data = [] := List.length_eq_zero.mp (by omega)
    subst this
    rw [preprocessLoop_nil]
    simp [JsonPreprocessor.postprocessLoop]
  | succ n ih =>
    intro data hlen hascii ins lc prev acc
    cases data with
    | nil =>
      rw [preprocessLoop_nil]
      simp [JsonPreprocessor.postprocessLoop]
    | cons c rest =>
      have hcmem := hascii c (List.mem_cons_self _ _)
      obtain ⟨e, he, hpost⟩ := preprocessStep_ascii c rest ins lc hcmem.1 hcmem.2
      have hdrop : (rest.drop (JsonPreprocessor.preprocessStep c rest ins lc).1).length ≤ n := by
        simp only [List.length_cons] at hlen
        rw [List.length_drop]; omega
      have hrest : ∀ b ∈ rest.drop (JsonPreprocessor.preprocessStep c rest ins lc).1,
          b < 0x80 ∧ b ≠ 0x20 ∧ b ≠ 0x09 ∧ b ≠ 0x0A ∧ b ≠ 0x0D :=
        fun b hb => hascii b (List.mem_cons_of_mem _ (List.mem_of_mem_drop hb))
      rw [preprocessLoop_cons, he, preprocessLoop_acc _ _ _ _ _ (Nat.le_refl _),
        List.nil_append, List.singleton_append, JsonPreprocessor.postprocessLoop, hpost,
        ih _ hdrop hrest, List.append_assoc, List.cons_append, List.take_append_drop]

/-- C25 (ASCII JSON round trip): for every input `x` whose bytes are all below `0x80` and
none of which is a space, tab, LF or CR, `postprocess (preprocess x) = x`. -/
theorem C25_ascii_json_round_trip (x : List Nat)
    (h : ∀ b ∈ x, b < 0x80 ∧ b ≠ 0x20 ∧ b ≠ 0x09 ∧ b ≠ 0x0A ∧ b ≠ 0x0D) :
    JsonPreprocessor.postprocess (JsonPreprocessor.preprocess x) = x := by
  have := postprocess_preprocess_ascii x.length x (Nat.le_refl _) h false 0 none []
  simpa [JsonPreprocessor.postprocess, JsonPreprocessor.preprocess] using this

/-- Witness for C25 on the input `{"a":true}`. -/
theorem C25_ascii_json_round_trip_witness :
    JsonPreprocessor.postprocess (JsonPreprocessor.preprocess
        [0x7B, 0x22, 0x61, 0x22, 0x3A, 0x74, 0x72, 0x75, 0x65, 0x7D])
      = [0x7B, 0x22, 0x61, 0x22, 0x3A, 0x74, 0x72, 0x75, 0x65, 0x7D] :=
  C25_ascii_json_round_trip _ (by decide)

/-! ### What one iteration of the streaming encoder writes -/

theorem flush_literals_eq (out lit : List Nat) (hlit : lit.length ≤ 255) :
    flush_literals out lit = if lit = [] then out else out ++ lit.length :: lit := by
  unfold flush_literals
  cases lit with
  | nil => rfl
  | cons b bs =>
    simp only [List.isEmpty_cons, Bool.false_eq_true, if_false]
    rw [if_neg (by simp), Nat.mod_eq_of_lt (by omega)]

theorem short_header_eq_ff_iff : ∀ n < 128, (0x80 ||| n = 0xFF ↔ n = 127) := by
  set_option maxRecDepth 100000 in decide

/-- C22 as the spec states it fails on the code: on a chunk of 133 equal bytes
`encoder_chunk` writes the 130-byte match at distance 3 as the three bytes `FF 03 00`,
a short-match block whose header byte is `0xFF`. -/
theorem C22_stream_match_of_130_has_header_ff :
    encoder_chunk (encoder_init { lit := [] }) (List.replicate 133 5)
      = .returns ([3, 5, 5, 5, 0xFF, 3, 0], { lit := [] }) := by
  set_option maxRecDepth 1000000 in decide

/-- C22 (amended): at a loop head of `encoder_chunk` with at most 126 pending bytes, one
iteration writes the following and nothing else. At `i < len`, when the finder returns a
length `L ≥ 3`, then `L ≤ 130` and the iteration writes the pending bytes as a literal
block followed by the three bytes `0x80 | (L - 3)`, distance low, distance high, and goes
on at `i + L` with no pending bytes; the header byte is `0xFF` exactly when `L = 130`.
At `i < len`, when the finder returns less than 3, the byte `data[i]` becomes pending, and
the iteration writes one literal block of 127 bytes when that fills the buffer, and
nothing when it does not. At `i ≥ len` the call returns the output and the pending bytes
as they are. A literal block is the count followed by the pending bytes; `encoder_end`
writes nothing, or the pending bytes as one literal block. No five-byte extended block is
written. -/
theorem C22_stream_iteration_writes_short_blocks (data : List Nat) (fuel i : Nat)
    (lit out : List Nat) (hlit : lit.length ≤ 126) :
    (i < data.length → 3 ≤ (find_match data i).1 →
        (find_match data i).1 ≤ 130
        ∧ encoderChunkLoop data (fuel + 1) i lit out
          = encoderChunkLoop data fuel (i + (find_match data i).1) []
              (flush_literals out lit
                ++ [0x80 ||| ((find_match data i).1 - 3), (find_match data i).2 % 256,
                    (find_match data i).2 / 256])
        ∧ (0x80 ||| ((find_match data i).1 - 3) = 0xFF ↔ (find_match data i).1 = 130))
      ∧ (i < data.length → (find_match data i).1 < 3 →
          encoderChunkLoop data (fuel + 1) i lit out
            = if lit.length = 126 then
                encoderChunkLoop data fuel (i + 1) [] (out ++ 127 :: (lit ++ [byteAt data i]))
              else encoderChunkLoop data fuel (i + 1) (lit ++ [byteAt data i]) out)
      ∧ (data.length ≤ i → encoderChunkLoop data (fuel + 1) i lit out = .returns (out, lit))
      ∧ flush_literals out lit = (if lit = [] then out else out ++ lit.length :: lit)
      ∧ (encoder_end { lit := lit }).1 = (if lit = [] then [] else lit.length :: lit) := by
  refine ⟨?_, ?_, ?_, flush_literals_eq out lit (by omega), ?_⟩
  · intro hi hm
    obtain ⟨h130, hma⟩ := find_match_spec data i hi hm
    refine ⟨h130, ?_, ?_⟩
    · rw [encoderChunkLoop_succ, if_pos hi]
      unfold encoderChunkBody
      simp only
      rw [if_pos hm]
      have hmin : min (find_match data i).1 130 = (find_match data i).1 := by omega
      simp only [hmin]
      rw [matchBlockBytes_eq _ _ hm h130 hma.2.2.1]
    · rw [short_header_eq_ff_iff ((find_match data i).1 - 3) (by omega)]
      omega
  · intro hi hm
    rw [encoderChunkLoop_succ, if_pos hi]
    unfold encoderChunkBody
    simp only
    rw [if_neg (by omega)]
    have hl : (lit ++ [byteAt data i]).length = 127 ↔ lit.length = 126 := by
      simp only [List.length_append, List.length_singleton]
      omega
    by_cases h126 : lit.length = 126
    · rw [if_pos (hl.2 h126), if_pos h126]
      simp only
      rw [flush_literals_eq _ _ (by rw [hl.2 h126]; decide), if_neg (by simp), hl.2 h126]
    · rw [if_neg (fun h => h126 (hl.1 h)), if_neg h126]
  · intro hi
    rw [encoderChunkLoop_succ, if_neg (by omega)]
  · show flush_literals [] lit = _
    rw [flush_literals_eq [] lit (by omega)]
    simp

/-- Witness for C22 (amended): on the chunk `1 2 3 1 2 3 1 2 3`, at position 3 with the
pending bytes `1 2 3`, the finder returns length 6 at distance 3 and the iteration writes
the literal block `03 01 02 03` and the short-match block `83 03 00`. -/
theorem C22_stream_iteration_writes_short_blocks_witness :
    encoderChunkLoop [1, 2, 3, 1, 2, 3, 1, 2, 3] 2 3 [1, 2, 3] []
      = encoderChunkLoop [1, 2, 3, 1, 2, 3, 1, 2, 3] 1 9 [] [3, 1, 2, 3, 0x83, 3, 0] :=
  ((C22_stream_iteration_writes_short_blocks [1, 2, 3, 1, 2, 3, 1, 2, 3] 1 3 [1, 2, 3] []
    (by decide)).1 (by decide) (by decide)).2.1

/-! ### The extended-match threshold of the thorough encoder -/

theorem compressLoop_succ (data : List Nat) (fuel i : Nat) (lit out : List Nat)
    (table : HashTable) :
    compressLoop data (fuel + 1) i lit out table
      = if i < data.length then
          match compressBody data i lit out table with
          | .returns st => compressLoop data fuel st.1 st.2.1 st.2.2.1 st.2.2.2
          | .undefinedBehaviour => .undefinedBehaviour
          | .outOfFuel => .outOfFuel
        else .returns (flush_literals out lit) := by
  rw [compressLoop]
  unfold compressBody
  split
  · simp only
    split
    · split
      · rfl
      · generalize emitSegments _ _ _ _ _ = r
        cases r with
        | returns v => cases v; rfl
        | undefinedBehaviour => rfl
        | outOfFuel => rfl
    · split <;> rfl
  · rfl

theorem extended_bytes_eq (len dist : Nat) (hlen : len ≤ 65535) (hd : dist ≤ 65535) :
    [0xFF, len &&& 0xFF, (len >>> 8) &&& 0xFF, (dist % 65536) &&& 0xFF,
        ((dist % 65536) >>> 8) &&& 0xFF]
      = [0xFF, len % 256, len / 256, dist % 256, dist / 256] := by
  have e4 : ∀ x : Nat, x &&& 0xFF = x % 256 := fun x => Nat.and_pow_two_sub_one_eq_mod x 8
  have e2 : dist % 65536 = dist := Nat.mod_eq_of_lt (by omega)
  have e3 : len / 2 ^ 8 % 256 = len / 256 := by omega
  have e5 : dist / 2 ^ 8 % 256 = dist / 256 := by omega
  rw [e2, e4, e4, e4, e4, Nat.shiftRight_eq_div_pow, Nat.shiftRight_eq_div_pow, e3, e5]

/-- C23 as the spec states it fails on the code: on 131 equal bytes the match found at
position 1 has length exactly 130, and `compress` writes it as the three bytes
`FF 01 00`, a short-match block with header `0xFF` (an extended block would be
`FF 82 00 01 00`). -/
theorem C23_match_of_130_is_a_short_block :
    (find_match_fast (List.replicate 131 97) 1
        (HashTable.empty.set (hash4 (List.replicate 131 97) 0) 0)).1 = 130
      ∧ compress (List.replicate 131 97) = .returns [1, 97, 0xFF, 1, 0] := by
  set_option maxRecDepth 1000000 in decide!

/-- C23 (amended): when the finder returns a match of length `L ≥ 4` at distance `d` at
a position of the main loop of `compress`, the iteration flushes the literal buffer and
then writes, if `L > 130`, one extended block `FF`, `L` (LE16), `d` (LE16), and if
`L ≤ 130`, one short-match block with header `0x80 | (L - 3)` and `d` (LE16), whose
header is `0xFF` exactly when `L = 130`; in both cases the loop goes on at `i + L`. -/
theorem C23_match_emission (data : List Nat) (fuel i : Nat) (lit out : List Nat)
    (table : HashTable) (hi : i < data.length) (ht : TableBelow table i)
    (hm : 4 ≤ (find_match_fast data i table).1) :
    (130 < (find_match_fast data i table).1 →
        compressLoop data (fuel + 1) i lit out table
          = compressLoop data fuel (i + (find_match_fast data i table).1) []
              (flush_literals out lit
                ++ [0xFF, (find_match_fast data i table).1 % 256,
                    (find_match_fast data i table).1 / 256,
                    (find_match_fast data i table).2.1 % 256,
                    (find_match_fast data i table).2.1 / 256])
              (find_match_fast data i table).2.2)
      ∧ ((find_match_fast data i table).1 ≤ 130 →
        compressLoop data (fuel + 1) i lit out table
            = compressLoop data fuel (i + (find_match_fast data i table).1) []
                (flush_literals out lit
                  ++ [0x80 ||| ((find_match_fast data i table).1 - 3),
                      (find_match_fast data i table).2.1 % 256,
                      (find_match_fast data i table).2.1 / 256])
                (find_match_fast data i table).2.2
          ∧ (0x80 ||| ((find_match_fast data i table).1 - 3) = 0xFF
              ↔ (find_match_fast data i table).1 = 130)) := by
  obtain ⟨h258, hma⟩ := (find_match_fast_spec data i table ht).2 hm
  constructor
  · intro hext
    rw [compressLoop, if_pos hi]
    simp only
    rw [if_pos hm, if_pos hext]
    have hl16 : min (find_match_fast data i table).1 65535 % 65536
        = (find_match_fast data i table).1 := by omega
    rw [hl16, extended_bytes_eq _ _ (by omega) hma.2.2.1]
  · intro hle
    refine ⟨?_, ?_⟩
    · rw [compressLoop, if_pos hi]
      simp only
      rw [if_pos hm, if_neg (by omega), emitSegments_single _ _ _ _ (by omega) hle]
      simp only
      rw [matchBlockBytes_eq _ _ (by omega) hle hma.2.2.1]
    · rw [short_header_eq_ff_iff _ (by omega)]
      omega

/-- Witness for C23 (amended): on 131 equal bytes, at position 1 with the first byte
pending, the match of length 130 is written as the short block `FF 01 00` and the run
ends with the output `01 61 FF 01 00`. -/
theorem C23_match_emission_witness :
    compressLoop (List.replicate 131 97) 2 1 [97] []
        (HashTable.empty.set (hash4 (List.replicate 131 97) 0) 0)
      = .returns [1, 97, 0xFF, 1, 0] := by
  have ht : TableBelow (HashTable.empty.set (hash4 (List.replicate 131 97) 0) 0) 1 :=
    (TableBelow.empty 0).set _
  have hL : (find_match_fast (List.replicate 131 97) 1
      (HashTable.empty.set (hash4 (List.replicate 131 97) 0) 0)).1 = 130 := by
    set_option maxRecDepth 1000000 in decide!
  have h := (C23_match_emission (List.replicate 131 97) 1 1 [97] [] _ (by simp) ht
    (by rw [hL]; decide)).2 (by rw [hL])
  rw [h.1, hL]
  set_option maxRecDepth 1000000 in decide!

/-! ### Round trip of the thorough encoder when no match is longer than 130 -/

theorem CompressLoopState.tableBelow {data : List Nat} {i : Nat} {lit out : List Nat}
    {table : HashTable} (h : CompressLoopState data i lit out table) :
    TableBelow table i := by
  induction h with
  | start => exact TableBelow.empty 0
  | @step i i2 lit lit2 out out2 table table2 _ hlt hbody ih =>
    obtain ⟨htab2, hmatch⟩ := find_match_fast_spec data i table ih
    unfold compressBody at hbody
    simp only at hbody
    split at hbody
    · next hm =>
      obtain ⟨h258, hma⟩ := hmatch hm
      split at hbody
      · next hext =>
        cases hbody
        exact htab2.mono (by omega)
      · next hext =>
        rw [emitSegments_single _ _ _ _ (by omega) (by omega)] at hbody
        cases hbody
        exact htab2.mono (by omega)
    · split at hbody
      · cases hbody; exact htab2
      · cases hbody; exact htab2

theorem takesNoExtendedBranch_of_length_le (data : List Nat) (hlen : data.length ≤ 131) :
    TakesNoExtendedBranch data := by
  intro i lit out table hst hlt
  by_cases hm : 4 ≤ (find_match_fast data i table).1
  · obtain ⟨_, hma⟩ := (find_match_fast_spec data i table hst.tableBelow).2 hm
    have := hma.1
    have := hma.2.1
    have := hma.2.2.2.1
    omega
  · omega

theorem compressLoop_correct_of_no_extended (data : List Nat)
    (hno : TakesNoExtendedBranch data) :
    ∀ (fuel i : Nat) (lit out : List Nat) (table : HashTable) (P : List Nat),
      CompressLoopState data i lit out table →
      data.length - i < fuel → i ≤ data.length → lit.length < 127 →
      data.take i = P ++ lit → Emits out P →
      ∃ C, compressLoop data fuel i lit out table = .returns C ∧ Emits C data := by
  intro fuel
  induction fuel with
  | zero => intro i lit out table P _ hf; omega
  | succ fuel ih =>
    intro i lit out table P hst hf hi hlit htake hem
    have htab := hst.tableBelow
    by_cases hlt : i < data.length
    · obtain ⟨htab2, hmatch⟩ := find_match_fast_spec data i table htab
      have h130 := hno i lit out table hst hlt
      by_cases hm : (find_match_fast data i table).1 ≥ 4
      · obtain ⟨_, hma⟩ := hmatch hm
        have hbody : compressBody data i lit out table
            = .returns (i + (find_match_fast data i table).1, [],
                flush_literals out lit ++ matchBlockBytes (find_match_fast data i table).1
                  (find_match_fast data i table).2.1,
                (find_match_fast data i table).2.2) := by
          unfold compressBody
          simp only
          rw [if_pos hm, if_neg (by omega), emitSegments_single _ _ _ _ (by omega) h130]
        rw [compressLoop_succ, if_pos hlt, hbody]
        simp only
        have hPlen : (P ++ lit).length = i := by
          rw [← htake, List.length_take]; omega
        have hem2 := (hem.flush lit (by omega)).matchBlock
          (find_match_fast data i table).1 (find_match_fast data i table).2.1
          (by omega) h130 hma.2.1 hma.2.2.1 (by rw [hPlen]; exact hma.2.2.2.1)
        rw [← htake, hma.matchBytes_eq] at hem2
        exact ih _ [] _ _ _ (hst.step hlt hbody) (by omega) hma.1 (by decide) (by simp) hem2
      · have htake2 : data.take (i + 1) = P ++ (lit ++ [byteAt data i]) := by
          rw [take_succ_byteAt data i hlt, htake, List.append_assoc]
        by_cases h127 : (lit ++ [byteAt data i]).length = 127
        · have hbody : compressBody data i lit out table
              = .returns (i + 1, [], flush_literals out (lit ++ [byteAt data i]),
                  (find_match_fast data i table).2.2) := by
            unfold compressBody
            simp only
            rw [if_neg hm, if_pos h127]
          rw [compressLoop_succ, if_pos hlt, hbody]
          simp only
          have hem2 := hem.flush (lit ++ [byteAt data i]) (by omega)
          rw [← htake2] at hem2
          exact ih _ [] _ _ _ (hst.step hlt hbody) (by omega) (by omega) (by decide)
            (by simp) hem2
        · have hbody : compressBody data i lit out table
              = .returns (i + 1, lit ++ [byteAt data i], out,
                  (find_match_fast data i table).2.2) := by
            unfold compressBody
            simp only
            rw [if_neg hm, if_neg h127]
          rw [compressLoop_succ, if_pos hlt, hbody]
          simp only
          have hl : (lit ++ [byteAt data i]).length < 127 := by
            simp only [List.length_append, List.length_singleton] at h127 ⊢
            omega
          exact ih _ _ _ _ _ (hst.step hlt hbody) (by omega) (by omega) hl htake2 hem
    · rw [compressLoop_succ, if_neg hlt]
      refine ⟨_, rfl, ?_⟩
      have hem2 := hem.flush lit (by omega)
      rw [← htake, List.take_of_length_le (by omega)] at hem2
      exact hem2

/-- C24 (restricted round trip of the thorough encoder): if the run of `compress` on `B`
never takes the extended-match branch (every match length the finder returns during the
run is at most 130), then `compress B` returns a stream that `decompress` turns back
into `B`; every `B` of at most 131 bytes is such a buffer. -/
theorem C24_compress_round_trip_without_extended (B : List Nat) :
    (TakesNoExtendedBranch B → ∃ C, compress B = .returns C ∧ decompress C = .returns B)
      ∧ (B.length ≤ 131 → TakesNoExtendedBranch B) := by
  refine ⟨fun hno => ?_, takesNoExtendedBranch_of_length_le B⟩
  obtain ⟨C, hC, hem⟩ := compressLoop_correct_of_no_extended B hno (B.length + 1) 0 [] []
    HashTable.empty [] CompressLoopState.start (by omega) (Nat.zero_le _) (by decide)
    (by simp) Emits.nil
  exact ⟨C, hC, hem.decompress⟩

/-- Witness for C24: 131 equal bytes, where the one match has length exactly 130 and is
written as the short block `FF 01 00`. -/
theorem C24_compress_round_trip_without_extended_witness :
    compress (List.replicate 131 97) = .returns [1, 97, 0xFF, 1, 0]
      ∧ decompress [1, 97, 0xFF, 1, 0] = .returns (List.replicate 131 97) := by
  have h := C24_compress_round_trip_without_extended (List.replicate 131 97)
  obtain ⟨C, hC, hD⟩ := h.1 (h.2 (by simp))
  have hC2 : compress (List.replicate 131 97) = .returns [1, 97, 0xFF, 1, 0] := by
    set_option maxRecDepth 1000000 in decide!
  rw [hC2] at hC
  cases hC
  exact ⟨hC2, hD⟩

/-! ### Match selection of the streaming encoder -/

theorem extendMatch_zero_le (data : List Nat) (s pos cap : Nat) :
    extendMatch data s pos cap 0 ≤ cap := by
  have := (extendMatch_spec data s pos cap 0 (fun j hj => absurd hj (by omega))).2.1
  omega

theorem extendMatch_zero_prefix (data : List Nat) (s pos cap : Nat) :
    CommonPrefix data s pos (extendMatch data s pos cap 0) :=
  (extendMatch_spec data s pos cap 0 (fun j hj => absurd hj (by omega))).2.2

theorem extendMatch_zero_ge (data : List Nat) (s pos cap m : Nat) (hm : m ≤ cap)
    (h : CommonPrefix data s pos m) : m ≤ extendMatch data s pos cap 0 := by
  rcases extendMatch_maximal data s pos cap 0 with hmax | hne
  · omega
  · by_contra hlt
    exact hne (h _ (by omega))

theorem scanCandidates_firstLongest (data : List Nat) (pos cap lo : Nat) :
    ∀ (n s2 best_len best_dist : Nat), lo ≤ s2 →
      FirstLongest data pos cap lo s2 best_len best_dist →
      FirstLongest data pos cap lo (s2 + n)
        (scanCandidates data pos cap n s2 best_len best_dist).1
        (scanCandidates data pos cap n s2 best_len best_dist).2 := by
  intro n
  induction n with
  | zero => intro s2 bl bd _ h; exact h
  | succ n ih =>
    intro s2 bl bd hlo hinv
    have hcap := extendMatch_zero_le data s2 pos cap
    rw [scanCandidates]
    have e : s2 + (n + 1) = (s2 + 1) + n := by omega
    split
    · next hm =>
      have hnew : ∀ s, lo ≤ s → s < s2 → extendMatch data s pos cap 0
          < extendMatch data s2 pos cap 0 := by
        intro s hs1 hs2
        rcases hinv with ⟨h0, hall⟩ | ⟨h3, best, _, _, _, _, hall, _⟩
        · have := hall s hs1 hs2; omega
        · have := hall s hs1 hs2; omega
      split
      · next hmax =>
        right
        refine ⟨hm.1, s2, hlo, by omega, rfl, rfl, ?_, hnew⟩
        intro s _ _
        have := extendMatch_zero_le data s pos cap
        omega
      · rw [e]
        refine ih (s2 + 1) _ _ (by omega) (Or.inr ⟨hm.1, s2, hlo, by omega, rfl, rfl, ?_, hnew⟩)
        intro s hs1 hs2
        by_cases hs : s < s2
        · exact Nat.le_of_lt (hnew s hs1 hs)
        · have : s = s2 := by omega
          rw [this]
    · next hm =>
      rw [e]
      refine ih (s2 + 1) _ _ (by omega) ?_
      rcases hinv with ⟨h0, hall⟩ | ⟨h3, best, hb1, hb2, hd, hbl, hall, hfirst⟩
      · left
        refine ⟨h0, ?_⟩
        intro s hs1 hs2
        by_cases hs : s < s2
        · exact hall s hs1 hs
        · have : s = s2 := by omega
          rw [this]
          by_contra hge
          exact hm ⟨by omega, by omega⟩
      · right
        refine ⟨h3, best, hb1, by omega, hd, hbl, ?_, hfirst⟩
        intro s hs1 hs2
        by_cases hs : s < s2
        · exact hall s hs1 hs
        · have : s = s2 := by omega
          rw [this]
          by_contra hgt
          exact hm ⟨by omega, by omega⟩

/-- C21 as the spec states it fails on the code: in `abcXabcYabcZ` at position 8 the
starts 0 and 4 both have the common prefix `abc` of length 3; `find_match` returns the
distance 8 of the first one scanned, the farthest, not the distance 4 of the nearest. -/
theorem C21_tie_goes_to_the_farthest_candidate :
    find_match [97, 98, 99, 88, 97, 98, 99, 89, 97, 98, 99, 90] 8 = (3, 8) := by
  decide

/-- C21 (amended): at a position `pos` of a chunk, with the starts `s` such that
`pos - 4096 ≤ s` and `s + 3 ≤ pos` as candidates and the cap `M = min(len - pos, 130)`,
`find_match` returns length 0 when no candidate has a common prefix of 3 bytes with
`pos`; otherwise it returns the greatest common-prefix length over the candidates, capped
at `M` and at least 3, with the distance of the first candidate in scan order (the
farthest, the largest distance) among those attaining it. -/
theorem C21_stream_match_selection (data : List Nat) (pos : Nat) :
    ((find_match data pos).1 = 0
        ∧ ∀ s, pos - 4096 ≤ s → s + 3 ≤ pos →
            ¬ (3 ≤ min (data.length - pos) 130 ∧ CommonPrefix data s pos 3))
      ∨ (3 ≤ (find_match data pos).1
        ∧ (find_match data pos).1 ≤ min (data.length - pos) 130
        ∧ ∃ best, pos - 4096 ≤ best ∧ best + 3 ≤ pos
            ∧ (find_match data pos).2 = pos - best
            ∧ CommonPrefix data best pos (find_match data pos).1
            ∧ (∀ s, pos - 4096 ≤ s → s + 3 ≤ pos → ∀ m, m ≤ min (data.length - pos) 130 →
                CommonPrefix data s pos m → m ≤ (find_match data pos).1)
            ∧ (∀ s, pos - 4096 ≤ s → s < best →
                ¬ CommonPrefix data s pos (find_match data pos).1)) := by
  have hlo : (if pos > 4096 then pos - 4096 else 0) = pos - 4096 := by
    split <;> omega
  have hscan := scanCandidates_firstLongest data pos (min (data.length - pos) 130)
    (pos - 4096) (pos + 1 - (pos - 4096 + 3)) (pos - 4096) 0 0 (Nat.le_refl _)
    (Or.inl ⟨rfl, fun s h1 h2 => absurd h2 (by omega)⟩)
  have hfm : find_match data pos
      = scanCandidates data pos (min (data.length - pos) 130)
          (pos + 1 - (pos - 4096 + 3)) (pos - 4096) 0 0 := by
    unfold find_match
    simp only [hlo]
  rw [← hfm] at hscan
  have hend : ∀ s, pos - 4096 ≤ s →
      (s < pos - 4096 + (pos + 1 - (pos - 4096 + 3)) ↔ s + 3 ≤ pos) := by
    intro s hs; omega
  rcases hscan with ⟨h0, hall⟩ | ⟨h3, best, hb1, hb2, hd, hbl, hall, hfirst⟩
  · left
    refine ⟨h0, ?_⟩
    intro s hs1 hs2 hcp
    have := hall s hs1 ((hend s hs1).2 hs2)
    have := extendMatch_zero_ge data s pos _ 3 hcp.1 hcp.2
    omega
  · right
    have hle := extendMatch_zero_le data best pos (min (data.length - pos) 130)
    refine ⟨h3, by omega, best, hb1, (hend best hb1).1 hb2, hd, ?_, ?_, ?_⟩
    · rw [← hbl]; exact extendMatch_zero_prefix data best pos _
    · intro s hs1 hs2 m hm hcp
      have := hall s hs1 ((hend s hs1).2 hs2)
      have := extendMatch_zero_ge data s pos _ m hm hcp
      omega
    · intro s hs1 hs2 hcp
      have := hfirst s hs1 hs2
      have := extendMatch_zero_ge data s pos (min (data.length - pos) 130)
        (find_match data pos).1 (by omega) hcp
      omega

end cx
